import Mathlib

/-!
Verification of the pagelet block-synchronization and document-tree core.

This file gives a shallow embedding, in Lean, of the mark engine
(`src/utils/textStyles.js`), the paginated-read reconciliation service
(`getPaginatedBlocks` in `src/services/blockService.js`), the bulk save
(`syncPageBlocks` in `src/app/api/pages/[pageId]/blocks/route.js`), the
cascading delete (`deletePage` in `src/app/api/pages/[pageId]/route.js`)
and the import service (`importBlocks` in
`src/app/api/pages/[pageId]/import/route.js`), together with theorems
settling the behavioural claims about them.

Embedding conventions:
- MongoDB ObjectIds are modelled as natural numbers; fresh id generation
  (`new mongoose.Types.ObjectId()`, `insertMany`) draws from a `nextId`
  counter carried in the store.  Global uniqueness of generated ids is
  expressed by the hypothesis that every id already in the store (and
  every id the client submits) is below the counter.
- JavaScript numbers that hold text offsets, orders and cursors are
  modelled as `Int` so that subtraction and comparisons are exact.
- `Array.prototype.sort` with comparator `(a, b) => a.key - b.key` is a
  stable sort by `key`; it is modelled by `sortByKey`, a stable insertion
  sort that inserts each element after existing elements of equal key.
- MongoDB `find().sort({order: 1})` is likewise modelled as a stable sort
  by `order`; all claims proved about it only depend on it being a sort.
- Timestamps (`createdAt`/`updatedAt`) carry no claim content and are
  omitted from the model.
-/

namespace Pagelet

/-- Inline style kind of a mark (`'bold' | 'italic' | 'underline'`). -/
inductive MType where
  | bold
  | italic
  | underline
deriving DecidableEq, Repr

/-- An inline style mark `{ type, start, end }` over a block's text.
The JS field `end` is called `endPos` here (`end` is a Lean keyword). -/
structure Mark where
  type : MType
  start : Int
  endPos : Int
deriving DecidableEq, Repr

/-- Stable insertion of `x` into a list: `x` goes before the first element
of strictly larger key, hence after all elements of equal key, exactly as
a stable sort with comparator `(a, b) => key a - key b` places it. -/
def insertByKey (key : α → Int) (x : α) : List α → List α
  | [] => [x]
  | y :: ys => if key x < key y then x :: y :: ys else y :: insertByKey key x ys

/-- Stable sort by an integer key, modelling JS `Array.prototype.sort`
with comparator `(a, b) => key a - key b` (stable since ES2019). -/
def sortByKey (key : α → Int) (l : List α) : List α :=
  l.foldl (fun acc x => insertByKey key x acc) []

/-- Merge loop of `applyMark`: walks the start-sorted same-type marks,
extending `current` while the next mark overlaps or touches it
(`next.start <= current.end`), emitting `current` otherwise. -/
def mergeLoop (current : Mark) : List Mark → List Mark
  | [] => [current]
  | next :: rest =>
      if next.start ≤ current.endPos then
        mergeLoop ⟨current.type, current.start, max current.endPos next.endPos⟩ rest
      else
        current :: mergeLoop next rest

/-- Merge pass of `applyMark` over the already sorted same-type marks. -/
def mergeRuns : List Mark → List Mark
  | [] => []
  | c :: rest => mergeLoop c rest

/-- Embeds `applyMark(marks, type, start, end)` from `src/utils/textStyles.js`:
keeps other-type marks, adds the new interval to the same-type marks, sorts
by start and merges overlapping/adjacent runs. -/
def applyMark (marks : List Mark) (t : MType) (start endP : Int) : List Mark :=
  if start ≥ endP then marks
  else
    let otherMarks := marks.filter (fun m => m.type ≠ t)
    let sameTypeMarks := marks.filter (fun m => m.type = t) ++ [⟨t, start, endP⟩]
    otherMarks ++ mergeRuns (sortByKey (fun m => m.start) sameTypeMarks)

/-- Embeds `removeMark(marks, type, start, end)` from `src/utils/textStyles.js`.
The JS loop pushes, per mark: other-type marks unchanged; disjoint marks
unchanged; contained marks dropped; otherwise the surviving left and/or
right remainders. -/
def removeMark (marks : List Mark) (t : MType) (start endP : Int) : List Mark :=
  if start ≥ endP then marks
  else
    marks.flatMap (fun mark =>
      if mark.type ≠ t then [mark]
      else if mark.endPos ≤ start ∨ mark.start ≥ endP then [mark]
      else if mark.start ≥ start ∧ mark.endPos ≤ endP then []
      else
        (if mark.start < start then [⟨mark.type, mark.start, start⟩] else []) ++
        (if mark.endPos > endP then [⟨mark.type, endP, mark.endPos⟩] else []))

/-- Length of the longest common prefix of two character lists, as computed
by the `while ... oldText[start] === newText[start]` scan. -/
def commonPrefixLen : List Char → List Char → Nat
  | a :: as, b :: bs => if a = b then commonPrefixLen as bs + 1 else 0
  | _, _ => 0

/-- The `mapPointAfterDeletion` helper of `adjustMarksForChange`: points
inside the deleted span collapse to its start, later points shift left. -/
def mapPointAfterDeletion (start deletedLength p : Int) : Int :=
  if p ≤ start then p
  else if p ≥ start + deletedLength then p - deletedLength
  else start

/-- Deletion phase of `adjustMarksForChange` (step 3 of the JS function):
remap both boundaries of every mark and drop marks that became empty. -/
def deletionPhase (marks : List Mark) (start deletedLength : Int) : List Mark :=
  if deletedLength > 0 then
    (marks.map (fun m =>
      ⟨m.type, mapPointAfterDeletion start deletedLength m.start,
        mapPointAfterDeletion start deletedLength m.endPos⟩)).filter
      (fun m => m.endPos > m.start)
  else marks

/-- Insertion phase of `adjustMarksForChange` (step 4 of the JS function):
shift marks at or after the pivot, extend marks straddling it. -/
def insertionPhase (marks : List Mark) (start insertedLength : Int) : List Mark :=
  if insertedLength > 0 then
    marks.map (fun m =>
      if start ≤ m.start then ⟨m.type, m.start + insertedLength, m.endPos + insertedLength⟩
      else if start < m.endPos then ⟨m.type, m.start, m.endPos + insertedLength⟩
      else m)
  else marks

/-- Embeds `adjustMarksForChange(marks, oldText, newText)` from
`src/utils/textStyles.js`.  The backward suffix scan (decrementing
`oldEnd`/`newEnd` while both exceed `start` and the trailing characters
match) is computed as the common prefix of the reversed tails, which stops
at the same first mismatch and at the same `start` bound. -/
def adjustMarksForChange (marks : List Mark) (oldText newText : List Char) : List Mark :=
  if oldText = newText then marks
  else
    let start := commonPrefixLen oldText newText
    let suf := commonPrefixLen ((oldText.drop start).reverse) ((newText.drop start).reverse)
    let oldEnd := oldText.length - suf
    let newEnd := newText.length - suf
    let deletedLength : Int := (oldEnd : Int) - (start : Int)
    let insertedLength : Int := (newEnd : Int) - (start : Int)
    if deletedLength = 0 ∧ insertedLength = 0 then marks
    else insertionPhase (deletionPhase marks (start : Int) deletedLength) (start : Int)
      insertedLength

/-- Block `type` enumeration from `src/models/Block.js` (`BLOCK_TYPES`). -/
inductive BType where
  | paragraph
  | heading1
  | heading2
  | heading3
  | todo
  | code
  | page
  | quote
  | image
  | link
deriving DecidableEq, Repr

/-- A page-reference value stored in `content.pageId`: the referenced
ObjectId, kept either raw or in its stringified form (the code compares
both via `.toString()` / `$or` on the two forms). -/
inductive PageRef where
  | raw (id : Nat)
  | str (id : Nat)
deriving DecidableEq, Repr

/-- The ObjectId a stored reference denotes (`.toString()` normalisation). -/
def PageRef.toId : PageRef → Nat
  | .raw i => i
  | .str i => i

/-- Block `content` payload (`Schema.Types.Mixed`).  The services only
inspect `content.pageId` and overwrite `content.title`; every other
type-specific field (`text`, `marks`, `code`, `url`, ...) is opaque to
them and is collapsed into `payload`. -/
structure Content where
  pageId : Option PageRef := none
  title : Option String := none
  payload : String := ""
deriving DecidableEq, Repr

/-- Page document from the Page model (timestamps omitted). -/
structure Page where
  id : Nat
  title : String
  ownerId : Nat
  parentPageId : Option Nat
  isPublic : Bool
deriving DecidableEq, Repr

/-- Block document from the Block model (timestamps omitted). -/
structure Block where
  id : Nat
  pageId : Nat
  type : BType
  content : Content
  order : Int
  backgroundColor : Option String
deriving DecidableEq, Repr

/-- The persistence layer: the two collections plus the fresh-ObjectId
supply used to model `new mongoose.Types.ObjectId()` and `insertMany`. -/
structure Store where
  pages : List Page
  blocks : List Block
  nextId : Nat
deriving DecidableEq, Repr

/-- Error taxonomy of the four routes (`400`/`404`/`403` responses). -/
inductive ApiError where
  | badRequest
  | notFound
  | forbidden
deriving DecidableEq, Repr

/-- The `limit` query parameter as received: the literal string `"all"`, a
string parsing to an integer, or an absent/non-numeric value (`parseInt`
returns `NaN`). -/
inductive LimitParam where
  | all
  | num (n : Int)
  | invalid
deriving DecidableEq, Repr

/-- Embeds `limitParam === 'all' ? 0 : (parseInt(limitParam) || 20)`:
a parsed `0` is falsy in JS and falls back to the default `20`. -/
def parseLimit : LimitParam → Int
  | .all => 0
  | .num n => if n = 0 then 20 else n
  | .invalid => 20

/-- Embeds the query `{pageId, order: {$gt: cursor}}` (the cursor clause is
added only when the parameter is present and numeric) composed with
`.sort({order: 1})`. -/
def blocksQuery (store : Store) (pageId : Nat) (cursor : Option Int) : List Block :=
  sortByKey (fun b => b.order)
    (store.blocks.filter (fun b =>
      b.pageId == pageId &&
        match cursor with
        | some c => decide (c < b.order)
        | none => true))

/-- The rows fetched by `getPaginatedBlocks`: the sorted query capped at
`limit + 1` when `limit > 0` (one extra row to detect `hasMore`). -/
def fetchedBlocks (store : Store) (pageId : Nat) (limit : Int) (cursor : Option Int) :
    List Block :=
  let q := blocksQuery store pageId cursor
  if limit > 0 then q.take (limit.toNat + 1) else q

/-- The returned window of `getPaginatedBlocks`: the fetched rows with the
extra hasMore-detection row sliced off. -/
def windowBlocks (store : Store) (pageId : Nat) (limit : Int) (cursor : Option Int) :
    List Block :=
  let fetched := fetchedBlocks store pageId limit cursor
  if limit > 0 && decide ((fetched.length : Int) > limit) then fetched.take limit.toNat
  else fetched

/-- Truthiness test `b.type === 'page' && b.content?.pageId` (an ObjectId or
non-empty string value is truthy; absence is falsy). -/
def isPageRefBlock (b : Block) : Bool :=
  decide (b.type = BType.page) && b.content.pageId.isSome

/-- Membership test of `existingPagesMap` for a referenced id. -/
def hasPageId (existing : List Page) (i : Nat) : Bool :=
  existing.any (fun p => p.id == i)

/-- Lookup in `existingPagesMap` (keyed by `_id.toString()`). -/
def lookupPageId (existing : List Page) (i : Nat) : Option Page :=
  existing.find? (fun p => p.id == i)

/-- The batch existence/visibility fetch of `getPaginatedBlocks`:
`Page.find({_id: {$in: pageBlockIds}})` (Mongoose casts raw and
stringified ids alike to ObjectIds). -/
def existingPagesFor (store : Store) (refs : List PageRef) : List Page :=
  store.pages.filter (fun p => refs.any (fun r => r.toId == p.id))

/-- The orphan test of `getPaginatedBlocks`: a page-reference block whose
target page is absent from the batch-fetched map. -/
def orphanPred (existing : List Page) (b : Block) : Bool :=
  match b.content.pageId with
  | some r => decide (b.type = BType.page) && !hasPageId existing r.toId
  | none => false

/-- The first result filter of `getPaginatedBlocks`: keep a block unless it
is a page-reference whose target page does not exist. -/
def keepPred (existing : List Page) (b : Block) : Bool :=
  match b.content.pageId with
  | some r => !(decide (b.type = BType.page)) || hasPageId existing r.toId
  | none => true

/-- The additional public-view filter of `getPaginatedBlocks`: keep a
page-reference only when its target page exists and is public. -/
def publicKeepPred (existing : List Page) (b : Block) : Bool :=
  match b.content.pageId with
  | some r =>
      !(decide (b.type = BType.page)) ||
        (hasPageId existing r.toId &&
          ((lookupPageId existing r.toId).map (fun p => p.isPublic)).getD false)
  | none => true

/-- The title-injection step of `getPaginatedBlocks`: every surviving
page-reference block has `content.title` overwritten with the live title
of its target (`pageInfo?.title || 'Untitled'`). -/
def injectTitle (existing : List Page) (b : Block) : Block :=
  match b.content.pageId with
  | some r =>
      if b.type = BType.page then
        { b with
            content :=
              { b.content with
                  title := some
                    (match lookupPageId existing r.toId with
                      | some p => if p.title = "" then "Untitled" else p.title
                      | none => "Untitled") } }
      else b
  | none => b

/-- Result shape `{blocks, nextCursor, hasMore}` of the paginated read. -/
structure PaginatedResult where
  blocks : List Block
  nextCursor : Option Int
  hasMore : Bool
deriving DecidableEq, Repr

/-- Embeds `getPaginatedBlocks(pageId, limitParam, cursorParam, isPublicView)`
from `src/services/blockService.js`, returning the possibly-cleaned store
together with `{blocks, nextCursor, hasMore}`. -/
def getPaginatedBlocks (store : Store) (pageId : Nat) (limitParam : LimitParam)
    (cursorParam : Option Int) (isPublicView : Bool) : Store × PaginatedResult :=
  let limit := parseLimit limitParam
  let fetched := fetchedBlocks store pageId limit cursorParam
  let hasMore := limit > 0 && decide ((fetched.length : Int) > limit)
  let blocks := windowBlocks store pageId limit cursorParam
  let nextCursor := blocks.getLast?.map (fun b => b.order)
  let pageBlockIds := (blocks.filter isPageRefBlock).filterMap (fun b => b.content.pageId)
  if pageBlockIds.isEmpty then (store, ⟨blocks, nextCursor, hasMore⟩)
  else
    let existingPages := existingPagesFor store pageBlockIds
    let orphanBlocks := blocks.filter (orphanPred existingPages)
    let store' :=
      if !isPublicView && !orphanBlocks.isEmpty then
        { store with
            blocks := store.blocks.filter (fun b => !(orphanBlocks.any (fun o => o.id == b.id))) }
      else store
    let finalBlocks := blocks.filter (keepPred existingPages)
    let finalBlocks :=
      if isPublicView then finalBlocks.filter (publicKeepPred existingPages)
      else finalBlocks
    let finalBlocks := finalBlocks.map (injectTitle existingPages)
    (store', ⟨finalBlocks, nextCursor, hasMore⟩)

/-- One incoming block of the save request body.  `id` is `some` exactly
when the client sent an `_id` that passes `mongoose.Types.ObjectId.isValid`;
any client-sent `order` is ignored by the route and therefore not modelled. -/
structure InBlock where
  id : Option Nat
  type : BType
  content : Content
  backgroundColor : Option String
deriving DecidableEq, Repr

/-- The `blockData` document assembled per incoming block (`order` is
overwritten with the array index). -/
structure BlockData where
  pageId : Nat
  type : BType
  content : Content
  order : Int
  backgroundColor : Option String
deriving DecidableEq, Repr

/-- The stored block a write of `blockData` under the given `_id` yields
(`$set` of every modelled field, or the upsert-inserted document). -/
def BlockData.toBlock (d : BlockData) (id : Nat) : Block :=
  ⟨id, d.pageId, d.type, d.content, d.order, d.backgroundColor⟩

@[simp]
theorem BlockData.toBlock_id (d : BlockData) (id : Nat) : (d.toBlock id).id = id := rfl

@[simp]
theorem BlockData.toBlock_pageId (d : BlockData) (id : Nat) :
    (d.toBlock id).pageId = d.pageId := rfl

@[simp]
theorem BlockData.toBlock_order (d : BlockData) (id : Nat) :
    (d.toBlock id).order = d.order := rfl

/-- One operation of the `bulkWrite` batch assembled by `syncPageBlocks`. -/
inductive Op where
  | updateOneUpsert (id : Nat) (d : BlockData)
  | insertOne (id : Nat) (d : BlockData)
  | deleteManyNotIn (pageId : Nat) (keep : List Nat)
  | deleteManyPage (pageId : Nat)
deriving DecidableEq, Repr

/-- `updateOne` semantics: replace the first document matching `_id`. -/
def updateFirst (id : Nat) (d : BlockData) : List Block → List Block
  | [] => []
  | b :: bs => if b.id = id then d.toBlock id :: bs else b :: updateFirst id d bs

/-- Applies one `bulkWrite` operation to the blocks collection. -/
def applyOp (blocks : List Block) : Op → List Block
  | .updateOneUpsert id d =>
      if blocks.any (fun b => b.id == id) then updateFirst id d blocks
      else blocks ++ [d.toBlock id]
  | .insertOne id d => blocks ++ [d.toBlock id]
  | .deleteManyNotIn pid keep =>
      blocks.filter (fun b => !(b.pageId == pid && !(keep.any (fun k => k == b.id))))
  | .deleteManyPage pid => blocks.filter (fun b => !(b.pageId == pid))

/-- The `blocks.forEach((block, index) => ...)` loop of `syncPageBlocks`:
builds the per-block upsert/insert operations, the retained id set (in
insertion order) and threads the fresh-ObjectId counter.  `i` is the
running array index, `c` the counter. -/
def buildSyncOps (pageId : Nat) : List InBlock → Nat → Nat → List Op × List Nat × Nat
  | [], _, c => ([], [], c)
  | b :: rest, i, c =>
      let d : BlockData := ⟨pageId, b.type, b.content, (i : Int), b.backgroundColor⟩
      match b.id with
      | some id =>
          let (ops, ids, c') := buildSyncOps pageId rest (i + 1) c
          (.updateOneUpsert id d :: ops, id :: ids, c')
      | none =>
          let (ops, ids, c') := buildSyncOps pageId rest (i + 1) (c + 1)
          (.insertOne c d :: ops, c :: ids, c')

/-- Embeds `syncPageBlocks` (PUT `/api/pages/[pageId]/blocks`): ownership
check, batched upserts with `order` forced to the array index, trailing
delete of the page's non-retained blocks (or of every block when the
incoming list is empty), then the fresh `find({pageId}).sort({order: 1})`
read that the route returns. -/
def syncPageBlocks (store : Store) (userId pageId : Nat) (blocks : List InBlock) :
    Except ApiError (Store × List Block) :=
  if store.pages.any (fun p => p.id == pageId && p.ownerId == userId) then
    let built := buildSyncOps pageId blocks 0 store.nextId
    let incomingBlockIds := built.2.1
    let ops := built.1 ++
      [if incomingBlockIds.isEmpty then Op.deleteManyPage pageId
       else Op.deleteManyNotIn pageId incomingBlockIds]
    let newBlocks := ops.foldl applyOp store.blocks
    let updatedBlocks :=
      sortByKey (fun b => b.order) (newBlocks.filter (fun b => b.pageId == pageId))
    .ok ({ store with blocks := newBlocks, nextId := built.2.2 }, updatedBlocks)
  else .error .notFound

/-- Ids of the immediate children of `pid` in the owner's scope
(`Page.find({parentPageId: pageId, userId})`). -/
def childPageIds (store : Store) (userId pid : Nat) : List Nat :=
  (store.pages.filter (fun p => p.parentPageId == some pid && p.ownerId == userId)).map
    (fun p => p.id)

/-- Embeds `collectDescendantPages(pageId, userId)`: the page itself
followed by the depth-first recursive collection of each child's subtree.
The JS recursion carries no explicit bound; `fuel` is the termination
measure of the embedding, and the theorems below supply enough fuel for
every acyclic store. -/
def collectDescendantPages (store : Store) (userId : Nat) : Nat → Nat → List Nat
  | 0, pid => [pid]
  | fuel + 1, pid =>
      pid :: (childPageIds store userId pid).flatMap (collectDescendantPages store userId fuel)

/-- Response payload of DELETE `/api/pages/[pageId]`. -/
structure DeleteResult where
  deletedCount : Nat
  parentPageId : Option Nat
deriving DecidableEq, Repr

/-- Embeds `deletePage` (DELETE `/api/pages/[pageId]`): ownership check,
descendant collection, bulk delete of the subtree's blocks and pages, and
removal of the parent's page-reference blocks (raw or stringified form). -/
def deletePage (store : Store) (userId pageId : Nat) :
    Except ApiError (Store × DeleteResult) :=
  match store.pages.find? (fun p => p.id == pageId && p.ownerId == userId) with
  | none => .error .notFound
  | some page =>
      let pagesToDelete := collectDescendantPages store userId store.pages.length pageId
      let blocks1 := store.blocks.filter (fun b => !(pagesToDelete.any (fun q => q == b.pageId)))
      let pages1 := store.pages.filter (fun p => !(pagesToDelete.any (fun q => q == p.id)))
      let blocks2 :=
        match page.parentPageId with
        | some par =>
            blocks1.filter (fun b =>
              !(b.pageId == par && decide (b.type = BType.page) &&
                (b.content.pageId == some (PageRef.raw pageId) ||
                  b.content.pageId == some (PageRef.str pageId))))
        | none => blocks1
      .ok ({ store with pages := pages1, blocks := blocks2 },
        ⟨pagesToDelete.length, page.parentPageId⟩)

/-- Models `String.prototype.trim()`: strip leading and trailing
whitespace (kept as an explicit list computation so that concrete
instances evaluate inside the kernel). -/
def strTrim (s : String) : String :=
  ⟨((s.data.dropWhile (fun c => c.isWhitespace)).reverse.dropWhile
      (fun c => c.isWhitespace)).reverse⟩

/-- Response payload of POST `/api/pages/[pageId]/import`. -/
structure ImportResult where
  importedCount : Nat
  blocks : List Block
  updatedTitle : Option String
deriving DecidableEq, Repr

/-- Embeds `importBlocks` (POST `/api/pages/[pageId]/import`): validation,
the capped ascending read of the source's non-page blocks, appending the
clones after the target's maximum order with fresh ids, and the
conditional title copy.  `targetBlocksLast[0]` (the descending sort capped
at one row) is the maximum-order row, modelled as the last row of the
ascending sort.  The JS condition `!targetPage.title` (empty string is
falsy) is subsumed by `title.trim() === ''`. -/
def importBlocks (store : Store) (userId targetPageId sourcePageId : Nat) :
    Except ApiError (Store × ImportResult) :=
  if targetPageId = sourcePageId then .error .badRequest
  else
    match store.pages.find? (fun p => p.id == targetPageId && p.ownerId == userId) with
    | none => .error .notFound
    | some targetPage =>
        match store.pages.find? (fun p => p.id == sourcePageId) with
        | none => .error .notFound
        | some sourcePage =>
            if !sourcePage.isPublic then .error .forbidden
            else
              let sourceBlocks := (sortByKey (fun b => b.order)
                (store.blocks.filter (fun b =>
                  b.pageId == sourcePageId && !(decide (b.type = BType.page))))).take 50
              if sourceBlocks.isEmpty then .error .badRequest
              else
                let currentHighestOrder : Int :=
                  match (sortByKey (fun b => b.order)
                      (store.blocks.filter (fun b => b.pageId == targetPageId))).getLast? with
                  | some b => b.order
                  | none => -1
                let clonedBlocks := sourceBlocks.enum.map (fun p =>
                  (⟨store.nextId + p.1, targetPageId, p.2.type, p.2.content,
                    currentHighestOrder + 1 + (p.1 : Int), p.2.backgroundColor⟩ : Block))
                let updatedTitle : Option String :=
                  if strTrim targetPage.title = "Untitled" ∨ strTrim targetPage.title = "" then
                    some (if sourcePage.title = "" then "Imported Page" else sourcePage.title)
                  else none
                let pages' :=
                  match updatedTitle with
                  | some t =>
                      store.pages.map (fun p =>
                        if p.id = targetPageId then { p with title := t } else p)
                  | none => store.pages
                .ok ({ pages := pages', blocks := store.blocks ++ clonedBlocks,
                        nextId := store.nextId + clonedBlocks.length },
                  ⟨clonedBlocks.length, clonedBlocks, updatedTitle⟩)

/-! ### Generic facts about the stable insertion sort `sortByKey` -/

theorem insertByKey_perm (key : α → Int) (x : α) (l : List α) :
    (insertByKey key x l).Perm (x :: l) := by
  induction l with
  | nil => simp [insertByKey]
  | cons y ys ih =>
      simp only [insertByKey]
      split
      · exact List.Perm.refl _
      · exact ((ih.cons y).trans (List.Perm.swap x y ys))

theorem insertByKey_sorted (key : α → Int) (x : α) (l : List α)
    (h : l.Pairwise (fun a b => key a ≤ key b)) :
    (insertByKey key x l).Pairwise (fun a b => key a ≤ key b) := by
  induction l with
  | nil => simp [insertByKey]
  | cons y ys ih =>
      rcases List.pairwise_cons.mp h with ⟨hy, hys⟩
      simp only [insertByKey]
      split
      · refine List.pairwise_cons.mpr ⟨?_, h⟩
        intro a ha
        rcases List.mem_cons.mp ha with rfl | ha
        · omega
        · exact le_trans (by omega) (hy a ha)
      · refine List.pairwise_cons.mpr ⟨?_, ih hys⟩
        intro a ha
        have := (insertByKey_perm key x ys).mem_iff.mp ha
        rcases List.mem_cons.mp this with rfl | ha'
        · omega
        · exact hy a ha'

theorem insertByKey_of_forall_le (key : α → Int) (x : α) (l : List α)
    (h : ∀ y ∈ l, ¬ key x < key y) :
    insertByKey key x l = l ++ [x] := by
  induction l with
  | nil => simp [insertByKey]
  | cons y ys ih =>
      simp only [insertByKey]
      rw [if_neg (h y (by simp)), ih (fun z hz => h z (by simp [hz]))]
      simp

theorem sortByKey_go_perm (key : α → Int) (l acc : List α) :
    (l.foldl (fun acc x => insertByKey key x acc) acc).Perm (acc ++ l) := by
  induction l generalizing acc with
  | nil => simp
  | cons x xs ih =>
      simp only [List.foldl_cons]
      refine (ih (insertByKey key x acc)).trans ?_
      have h1 : (insertByKey key x acc ++ xs).Perm ((x :: acc) ++ xs) :=
        (insertByKey_perm key x acc).append_right xs
      refine h1.trans ?_
      simpa using (@List.perm_middle _ x acc xs).symm

theorem sortByKey_perm (key : α → Int) (l : List α) : (sortByKey key l).Perm l := by
  simpa using sortByKey_go_perm key l []

theorem sortByKey_go_sorted (key : α → Int) (l acc : List α)
    (h : acc.Pairwise (fun a b => key a ≤ key b)) :
    (l.foldl (fun acc x => insertByKey key x acc) acc).Pairwise
      (fun a b => key a ≤ key b) := by
  induction l generalizing acc with
  | nil => simpa
  | cons x xs ih => exact ih _ (insertByKey_sorted key x acc h)

theorem sortByKey_sorted (key : α → Int) (l : List α) :
    (sortByKey key l).Pairwise (fun a b => key a ≤ key b) := by
  exact sortByKey_go_sorted key l [] (by simp)

theorem sortByKey_go_eq_append (key : α → Int) (l acc : List α)
    (h : (acc ++ l).Pairwise (fun a b => key a ≤ key b)) :
    l.foldl (fun acc x => insertByKey key x acc) acc = acc ++ l := by
  induction l generalizing acc with
  | nil => simp
  | cons x xs ih =>
      simp only [List.foldl_cons]
      have hx : insertByKey key x acc = acc ++ [x] := by
        refine insertByKey_of_forall_le key x acc ?_
        intro y hy
        have hp := List.pairwise_append.mp h
        have := hp.2.2 y hy x (by simp)
        omega
      rw [hx]
      have : ((acc ++ [x]) ++ xs).Pairwise (fun a b => key a ≤ key b) := by
        simpa using h
      rw [ih (acc ++ [x]) this]
      simp

theorem sortByKey_eq_self (key : α → Int) (l : List α)
    (h : l.Pairwise (fun a b => key a ≤ key b)) :
    sortByKey key l = l := by
  simpa using sortByKey_go_eq_append key l [] (by simpa)

theorem sortByKey_concat (key : α → Int) (l : List α) (x : α) :
    sortByKey key (l ++ [x]) = insertByKey key x (sortByKey key l) := by
  simp [sortByKey]

theorem getLast?_key_max (key : α → Int) (l : List α)
    (h : l.Pairwise (fun a b => key a ≤ key b)) :
    ∀ x ∈ l, ∀ m, l.getLast? = some m → key x ≤ key m := by
  induction l with
  | nil => simp
  | cons a t ih =>
      intro x hx m hm
      cases t with
      | nil =>
          simp at hm hx
          subst hm; subst hx; exact le_refl _
      | cons b t' =>
          have hm' : (b :: t').getLast? = some m := by
            simpa [List.getLast?] using hm
          rcases List.mem_cons.mp hx with rfl | hx'
          · have hmem : m ∈ b :: t' := List.mem_of_mem_getLast? hm'
            exact (List.pairwise_cons.mp h).1 m hmem
          · exact ih (List.pairwise_cons.mp h).2 x hx' m hm'

/-! ### C8: `removeMark` splits and drops marks as specified -/

/-- Stated from the spec's words (§4.1, `removeMark`): marks of other types
pass through; a same-type mark is a no-op if disjoint from `[start, end)`,
dropped entirely if contained in it, and otherwise replaced by the
surviving left remainder `[mark.start, start)` and/or right remainder
`[end, mark.end)`. -/
def removeMarkSpecCase (t : MType) (start endP : Int) (mark : Mark) : List Mark :=
  if mark.type ≠ t then [mark]
  else if mark.endPos ≤ start ∨ endP ≤ mark.start then [mark]
  else if start ≤ mark.start ∧ mark.endPos ≤ endP then []
  else
    (if mark.start < start then [⟨mark.type, mark.start, start⟩] else []) ++
    (if endP < mark.endPos then [⟨mark.type, endP, mark.endPos⟩] else [])

/-- C8: for all marks, `type` and `start < end`, `removeMark` passes marks
of other types through unchanged and maps each same-type mark to nothing,
itself, or its surviving left/right remainders exactly as the spec's case
analysis describes; in particular one mark `[0,10)` with the range `[3,7)`
removed yields exactly `[0,3)` and `[7,10)`. -/
theorem removeMark_correct (marks : List Mark) (t : MType) (start endP : Int)
    (h : start < endP) :
    removeMark marks t start endP = marks.flatMap (removeMarkSpecCase t start endP) ∧
    removeMark [⟨t, 0, 10⟩] t 3 7 = [⟨t, 0, 3⟩, ⟨t, 7, 10⟩] := by
  constructor
  · rw [removeMark, if_neg (by omega)]
    exact List.flatMap_congr (fun mark _ => rfl)
  · simp [removeMark, removeMarkSpecCase, List.flatMap]

/-- Witness for `removeMark_correct` at a concrete input. -/
theorem removeMark_correct_witness :
    removeMark [⟨MType.bold, 0, 10⟩] MType.bold 3 7 =
      [⟨MType.bold, 0, 3⟩, ⟨MType.bold, 7, 10⟩] :=
  (removeMark_correct [] MType.bold 3 7 (by decide)).2

/-! ### C6: `applyMark` merge correctness and idempotence -/

theorem mergeLoop_type (l : List Mark) (cur : Mark) (t : MType)
    (hc : cur.type = t) (hl : ∀ y ∈ l, y.type = t) :
    ∀ R ∈ mergeLoop cur l, R.type = t := by
  induction l generalizing cur with
  | nil => simpa [mergeLoop]
  | cons next rest ih =>
      intro R hR
      rw [mergeLoop] at hR
      split at hR
      · exact ih ⟨cur.type, cur.start, max cur.endPos next.endPos⟩ hc
          (fun y hy => hl y (by simp [hy])) R hR
      · rcases List.mem_cons.mp hR with rfl | hR'
        · exact hc
        · exact ih next (hl next (by simp)) (fun y hy => hl y (by simp [hy])) R hR'

theorem mergeLoop_chain (l : List Mark) (cur : Mark)
    (h : (cur :: l).Pairwise (fun a b => a.start ≤ b.start)) :
    ∃ hd tl, mergeLoop cur l = hd :: tl ∧ hd.start = cur.start ∧
      (hd :: tl).Chain' (fun a b => a.endPos < b.start) ∧
      (hd :: tl).Pairwise (fun a b => a.start ≤ b.start) := by
  induction l generalizing cur with
  | nil => exact ⟨cur, [], by simp [mergeLoop]⟩
  | cons next rest ih =>
      rw [mergeLoop]
      split
      · have h' : (⟨cur.type, cur.start, max cur.endPos next.endPos⟩ :: rest).Pairwise
            (fun a b : Mark => a.start ≤ b.start) := by
          have hsub : (cur :: rest).Pairwise (fun a b : Mark => a.start ≤ b.start) :=
            h.sublist (by simp [List.Sublist.cons_cons, List.sublist_cons_self])
          rcases List.pairwise_cons.mp hsub with ⟨h1, h2⟩
          exact List.pairwise_cons.mpr ⟨fun b hb => h1 b hb, h2⟩
        exact ih _ h'
      · rcases ih next (List.pairwise_cons.mp h).2 with ⟨hd, tl, heq, hstart, hchain, hpair⟩
        refine ⟨cur, hd :: tl, by rw [heq], rfl, ?_, ?_⟩
        · refine List.chain'_cons.mpr ⟨?_, hchain⟩
          rw [hstart]; omega
        · refine List.pairwise_cons.mpr ⟨?_, hpair⟩
          intro b hb
          have hcn : cur.start ≤ next.start := (List.pairwise_cons.mp h).1 next (by simp)
          rcases List.mem_cons.mp hb with rfl | hb'
          · omega
          · have := (List.pairwise_cons.mp hpair).1 b hb'
            omega

theorem mergeLoop_covers (l : List Mark) (cur : Mark)
    (h : (cur :: l).Pairwise (fun a b => a.start ≤ b.start)) :
    ∀ x, (x = cur ∨ x ∈ l) →
      ∃ R ∈ mergeLoop cur l, R.start ≤ x.start ∧ x.endPos ≤ R.endPos := by
  induction l generalizing cur with
  | nil =>
      rintro x (rfl | hx)
      · exact ⟨x, by simp [mergeLoop]⟩
      · simp at hx
  | cons next rest ih =>
      intro x hx
      rw [mergeLoop]
      split
      · rename_i hle
        set cur' : Mark := ⟨cur.type, cur.start, max cur.endPos next.endPos⟩ with hcur'
        have h' : (cur' :: rest).Pairwise (fun a b : Mark => a.start ≤ b.start) := by
          have hsub : (cur :: rest).Pairwise (fun a b : Mark => a.start ≤ b.start) :=
            h.sublist (by simp [List.Sublist.cons_cons, List.sublist_cons_self])
          rcases List.pairwise_cons.mp hsub with ⟨h1, h2⟩
          exact List.pairwise_cons.mpr ⟨fun b hb => h1 b hb, h2⟩
        rcases hx with rfl | hx'
        · rcases ih cur' h' cur' (Or.inl rfl) with ⟨R, hR, h1, h2⟩
          exact ⟨R, hR, by simp [hcur'] at h1 ⊢; omega, by simp [hcur'] at h2 ⊢; omega⟩
        · rcases List.mem_cons.mp hx' with rfl | hx''
          · rcases ih cur' h' cur' (Or.inl rfl) with ⟨R, hR, h1, h2⟩
            have hcn : cur.start ≤ x.start := (List.pairwise_cons.mp h).1 x (by simp)
            refine ⟨R, hR, ?_, ?_⟩
            · simp [hcur'] at h1; omega
            · simp [hcur'] at h2; omega
          · rcases ih cur' h' x (Or.inr hx'') with ⟨R, hR, h1, h2⟩
            exact ⟨R, hR, h1, h2⟩
      · rcases hx with rfl | hx'
        · exact ⟨x, by simp, le_refl _, le_refl _⟩
        · rcases ih next (List.pairwise_cons.mp h).2 x (by
            rcases List.mem_cons.mp hx' with rfl | hx'' <;> [exact Or.inl rfl; exact Or.inr hx'']) with
            ⟨R, hR, h1, h2⟩
          exact ⟨R, by simp [hR], h1, h2⟩

theorem mergeLoop_of_chain (l : List Mark) (cur : Mark)
    (h : (cur :: l).Chain' (fun a b => a.endPos < b.start)) :
    mergeLoop cur l = cur :: l := by
  induction l generalizing cur with
  | nil => simp [mergeLoop]
  | cons next rest ih =>
      rcases List.chain'_cons.mp h with ⟨h1, h2⟩
      rw [mergeLoop, if_neg (by omega)]
      rw [ih next h2]

theorem mergeRuns_insert_covered (c : List Mark) (t : MType) (s e : Int)
    (hchain : c.Chain' (fun a b => a.endPos < b.start))
    (hpair : c.Pairwise (fun a b => a.start ≤ b.start))
    (hse : s < e)
    (hcov : ∃ R ∈ c, R.start ≤ s ∧ e ≤ R.endPos) :
    mergeRuns (insertByKey (fun m => m.start) ⟨t, s, e⟩ c) = c := by
  induction c with
  | nil => simp at hcov
  | cons a c' ih =>
      rw [insertByKey]
      split
      · rename_i hlt
        exfalso
        rcases hcov with ⟨R, hR, h1, _⟩
        rcases List.mem_cons.mp hR with rfl | hR'
        · simp at hlt; omega
        · have := (List.pairwise_cons.mp hpair).1 R hR'
          simp at hlt; omega
      · rename_i hge
        simp only [not_lt] at hge
        rcases hcov with ⟨R, hR, h1, h2⟩
        rcases List.mem_cons.mp hR with rfl | hR'
        · -- the head run absorbs the inserted interval
          have hins : insertByKey (fun m => m.start) ⟨t, s, e⟩ c' = ⟨t, s, e⟩ :: c' := by
            cases c' with
            | nil => simp [insertByKey]
            | cons b c'' =>
                rw [insertByKey, if_pos]
                have := (List.chain'_cons.mp hchain).1
                simp only []
                omega
          rw [hins]
          show mergeLoop R (⟨t, s, e⟩ :: c') = R :: c'
          rw [mergeLoop, if_pos (by simp; omega)]
          have hmax : max R.endPos (⟨t, s, e⟩ : Mark).endPos = R.endPos := by
            simp; omega
          rw [hmax]
          exact mergeLoop_of_chain c' R hchain
        · -- the covering run is further right; the head passes through
          have hbound : a.endPos < s := by
            cases c' with
            | nil => simp at hR'
            | cons b c'' =>
                have hab := (List.chain'_cons.mp hchain).1
                rcases List.mem_cons.mp hR' with rfl | hR''
                · omega
                · have hbR := (List.pairwise_cons.mp (List.pairwise_cons.mp hpair).2).1 R hR''
                  omega
          cases c' with
          | nil => simp at hR'
          | cons b c'' =>
              have hstep : mergeLoop a (insertByKey (fun m => m.start) ⟨t, s, e⟩ (b :: c'')) =
                  a :: mergeRuns (insertByKey (fun m => m.start) ⟨t, s, e⟩ (b :: c'')) := by
                rw [insertByKey]
                split
                · rw [mergeLoop, if_neg (by simp; omega)]
                  rfl
                · rw [mergeLoop, if_neg ?_]
                  · rfl
                  · have hab := (List.chain'_cons.mp hchain).1
                    simp only [not_le]
                    omega
              rw [mergeRuns, hstep,
                ih (List.chain'_cons.mp hchain).2 (List.pairwise_cons.mp hpair).2
                  ⟨R, hR', h1, h2⟩]

/-- C6: for all marks, `type` and `start < end`, `applyMark` returns the
other-type marks unchanged together with the same-type intervals plus
`[start, end)` sorted by start and merged into minimal runs (two runs merge
exactly when `nextStart ≤ currentEnd`); it is idempotent; and applying
`bold` to `[0,5)` then `[5,10)` yields the single mark `[0,10)`. -/
theorem applyMark_correct (marks : List Mark) (t : MType) (start endP : Int)
    (h : start < endP) :
    applyMark marks t start endP =
      marks.filter (fun m => m.type ≠ t) ++
        mergeRuns (sortByKey (fun m => m.start)
          (marks.filter (fun m => m.type = t) ++ [⟨t, start, endP⟩])) ∧
    applyMark (applyMark marks t start endP) t start endP =
      applyMark marks t start endP ∧
    applyMark (applyMark [] MType.bold 0 5) MType.bold 5 10 = [⟨MType.bold, 0, 10⟩] := by
  have hdef : applyMark marks t start endP =
      marks.filter (fun m => m.type ≠ t) ++
        mergeRuns (sortByKey (fun m => m.start)
          (marks.filter (fun m => m.type = t) ++ [⟨t, start, endP⟩])) := by
    rw [applyMark, if_neg (by omega)]
  refine ⟨hdef, ?_, by decide⟩
  set key : Mark → Int := fun m => m.start with hkey
  set x : Mark := ⟨t, start, endP⟩ with hx
  set other := marks.filter (fun m => decide (m.type ≠ t)) with hother
  set same := marks.filter (fun m => decide (m.type = t)) with hsame
  set sorted := sortByKey key (same ++ [x]) with hsortdef
  -- the sorted same-type list is nonempty: destructure it
  have hsortne : sorted ≠ [] := by
    intro hnil
    have := (sortByKey_perm key (same ++ [x])).length_eq
    rw [← hsortdef, hnil] at this
    simp at this
  obtain ⟨a, l, hal⟩ : ∃ a l, sorted = a :: l := by
    cases hsort : sorted with
    | nil => exact absurd hsort hsortne
    | cons a l => exact ⟨a, l, rfl⟩
  have hsorted : sorted.Pairwise (fun p q => p.start ≤ q.start) := by
    simpa [hkey] using sortByKey_sorted key (same ++ [x])
  set merged := mergeRuns sorted with hmerged
  have hmergeLoop : merged = mergeLoop a l := by rw [hmerged, hal]; rfl
  rw [hal] at hsorted
  obtain ⟨hd, tl, hhd, _, hchain, hpair⟩ := mergeLoop_chain l a hsorted
  -- every mark of the merged run list has type `t`
  have htypes : ∀ R ∈ merged, R.type = t := by
    rw [hmergeLoop]
    have hmem : ∀ y ∈ a :: l, y.type = t := by
      intro y hy
      rw [← hal] at hy
      have : y ∈ same ++ [x] := (sortByKey_perm key (same ++ [x])).subset hy
      rcases List.mem_append.mp this with hy' | hy'
      · exact of_decide_eq_true (List.mem_filter.mp hy').2
      · simp at hy'; rw [hy', hx]
    exact mergeLoop_type l a t (hmem a (by simp)) (fun y hy => hmem y (by simp [hy]))
  -- `[start, end)` is covered by one of the merged runs
  have hxmem : x ∈ a :: l := by
    rw [← hal]
    exact (sortByKey_perm key (same ++ [x])).symm.subset (by simp)
  have hcov : ∃ R ∈ merged, R.start ≤ start ∧ endP ≤ R.endPos := by
    rw [hmergeLoop]
    rcases mergeLoop_covers l a hsorted x
        (by rcases List.mem_cons.mp hxmem with h' | h' <;> [exact Or.inl h'; exact Or.inr h'])
      with ⟨R, hR, h1, h2⟩
    exact ⟨R, hR, by simpa [hx] using h1, by simpa [hx] using h2⟩
  have hchain' : merged.Chain' (fun p q => p.endPos < q.start) := by
    rw [hmergeLoop, hhd]; exact hchain
  have hpair' : merged.Pairwise (fun p q => p.start ≤ q.start) := by
    rw [hmergeLoop, hhd]; exact hpair
  -- second application: the filters of the first result
  have hr : applyMark marks t start endP = other ++ merged := hdef
  rw [hr, applyMark, if_neg (by omega)]
  have hf1 : (other ++ merged).filter (fun m => decide (m.type ≠ t)) = other := by
    rw [List.filter_append]
    have e1 : other.filter (fun m => decide (m.type ≠ t)) = other :=
      List.filter_eq_self.mpr (fun m hm => (List.mem_filter.mp hm).2)
    have e2 : merged.filter (fun m => decide (m.type ≠ t)) = [] := by
      apply List.filter_eq_nil_iff.mpr
      intro m hm
      simp [htypes m hm]
    rw [e1, e2, List.append_nil]
  have hf2 : (other ++ merged).filter (fun m => decide (m.type = t)) = merged := by
    rw [List.filter_append]
    have e1 : other.filter (fun m => decide (m.type = t)) = [] := by
      apply List.filter_eq_nil_iff.mpr
      intro m hm
      have := (List.mem_filter.mp ((hother ▸ hm) : m ∈ marks.filter (fun m => decide (m.type ≠ t)))).2
      simp at this ⊢
      exact this
    have e2 : merged.filter (fun m => decide (m.type = t)) = merged :=
      List.filter_eq_self.mpr (fun m hm => by simp [htypes m hm])
    rw [e1, e2, List.nil_append]
  rw [hf1, hf2]
  show other ++ mergeRuns (sortByKey key (merged ++ [x])) = other ++ merged
  congr 1
  rw [sortByKey_concat, sortByKey_eq_self key merged (by simpa [hkey] using hpair')]
  exact mergeRuns_insert_covered merged t start endP hchain' hpair' h hcov

/-- Witness for `applyMark_correct` at a concrete input. -/
theorem applyMark_correct_witness :
    applyMark (applyMark [⟨MType.bold, 2, 4⟩] MType.bold 3 7) MType.bold 3 7 =
      applyMark [⟨MType.bold, 2, 4⟩] MType.bold 3 7 :=
  (applyMark_correct [⟨MType.bold, 2, 4⟩] MType.bold 3 7 (by decide)).2.1

/-! ### C7: `adjustMarksForChange` on pure insertions -/

theorem commonPrefixLen_nil (t : List Char) : commonPrefixLen [] t = 0 := by
  cases t <;> rfl

theorem commonPrefixLen_append (A B C : List Char) :
    commonPrefixLen (A ++ B) (A ++ C) = A.length + commonPrefixLen B C := by
  induction A with
  | nil => simp
  | cons a as ih =>
      show commonPrefixLen (a :: (as ++ B)) (a :: (as ++ C)) = _
      rw [commonPrefixLen, if_pos rfl, ih, List.length_cons]
      omega

theorem commonPrefixLen_le_left : ∀ a b : List Char, commonPrefixLen a b ≤ a.length
  | [], b => by rw [commonPrefixLen_nil]; simp
  | _ :: _, [] => by simp [commonPrefixLen]
  | a :: as, b :: bs => by
      simp only [commonPrefixLen, List.length_cons]
      split
      · have := commonPrefixLen_le_left as bs
        omega
      · omega

theorem commonPrefixLen_self_append (l t : List Char) :
    commonPrefixLen l (l ++ t) = l.length := by
  have h := commonPrefixLen_append l [] t
  simpa [commonPrefixLen_nil] using h

theorem drop_insert_suffix (I B : List Char) (k : Nat) :
    ∃ C, (I ++ B).drop k = C ++ B.drop k := by
  by_cases h : k ≤ I.length
  · exact ⟨I.drop k ++ B.take k, by
      rw [List.drop_append_eq_append_drop, Nat.sub_eq_zero_of_le h, List.drop_zero,
        List.append_assoc, List.take_append_drop]⟩
  · push_neg at h
    refine ⟨(B.drop (k - I.length)).take (k - (k - I.length)), ?_⟩
    rw [List.drop_append_eq_append_drop, List.drop_eq_nil_of_le (le_of_lt h),
      List.nil_append]
    have hd : (B.drop (k - I.length)).drop (k - (k - I.length)) = B.drop k := by
      rw [List.drop_drop]
      congr 1
      omega
    conv_lhs => rw [← List.take_append_drop (k - (k - I.length)) (B.drop (k - I.length))]
    rw [hd]

theorem insertion_scan (A I B : List Char) :
    A.length ≤ commonPrefixLen (A ++ B) (A ++ I ++ B) ∧
    commonPrefixLen (A ++ B) (A ++ I ++ B) ≤ (A ++ B).length ∧
    commonPrefixLen (((A ++ B).drop (commonPrefixLen (A ++ B) (A ++ I ++ B))).reverse)
        (((A ++ I ++ B).drop (commonPrefixLen (A ++ B) (A ++ I ++ B))).reverse) =
      (A ++ B).length - commonPrefixLen (A ++ B) (A ++ I ++ B) := by
  have hassoc : A ++ I ++ B = A ++ (I ++ B) := by rw [List.append_assoc]
  have hk : commonPrefixLen (A ++ B) (A ++ I ++ B) = A.length + commonPrefixLen B (I ++ B) := by
    rw [hassoc, commonPrefixLen_append]
  have hkB : commonPrefixLen B (I ++ B) ≤ B.length := commonPrefixLen_le_left B (I ++ B)
  refine ⟨by omega, commonPrefixLen_le_left _ _, ?_⟩
  have h1 : (A ++ B).drop (A.length + commonPrefixLen B (I ++ B)) =
      B.drop (commonPrefixLen B (I ++ B)) := List.drop_append _
  have h2 : (A ++ I ++ B).drop (A.length + commonPrefixLen B (I ++ B)) =
      (I ++ B).drop (commonPrefixLen B (I ++ B)) := by
    rw [hassoc]; exact List.drop_append _
  obtain ⟨C, hC⟩ := drop_insert_suffix I B (commonPrefixLen B (I ++ B))
  rw [hk, h1, h2, hC, List.reverse_append, commonPrefixLen_self_append]
  simp
  omega

/-- C7: for any `oldText = A ++ B` and `newText = A ++ I ++ B` obtained by
inserting the non-empty substring `I`, the change pivot located by the
longest-common-prefix and longest-common-suffix scan lies at or after the
insertion position `|A|`, the deletion phase is a no-op, and every mark
entirely after the pivot shifts right by the inserted length, every mark
straddling the pivot has only its `end` extended, and every mark entirely
before the pivot is untouched. -/
theorem adjustMarksForChange_insertion (marks : List Mark) (A I B : List Char)
    (hI : I ≠ []) :
    (A.length : Int) ≤ (commonPrefixLen (A ++ B) (A ++ I ++ B) : Int) ∧
    adjustMarksForChange marks (A ++ B) (A ++ I ++ B) =
      marks.map (fun m =>
        if (commonPrefixLen (A ++ B) (A ++ I ++ B) : Int) ≤ m.start then
          ⟨m.type, m.start + (I.length : Int), m.endPos + (I.length : Int)⟩
        else if (commonPrefixLen (A ++ B) (A ++ I ++ B) : Int) < m.endPos then
          ⟨m.type, m.start, m.endPos + (I.length : Int)⟩
        else m) := by
  obtain ⟨hge, hle, hscan⟩ := insertion_scan A I B
  have hIlen : 0 < I.length := List.length_pos.mpr hI
  have hne : A ++ B ≠ A ++ I ++ B := by
    intro h
    have hlen := congrArg List.length h
    simp only [List.length_append] at hlen
    omega
  refine ⟨by exact_mod_cast hge, ?_⟩
  rw [adjustMarksForChange, if_neg hne]
  simp only [hscan]
  have hOE : (A ++ B).length - ((A ++ B).length - commonPrefixLen (A ++ B) (A ++ I ++ B)) =
      commonPrefixLen (A ++ B) (A ++ I ++ B) := by omega
  have hNE : (A ++ I ++ B).length -
      ((A ++ B).length - commonPrefixLen (A ++ B) (A ++ I ++ B)) =
      commonPrefixLen (A ++ B) (A ++ I ++ B) + I.length := by
    simp only [List.length_append] at hle ⊢
    omega
  simp only [hOE, hNE]
  have hd0 : ((commonPrefixLen (A ++ B) (A ++ I ++ B) : Int)) -
      (commonPrefixLen (A ++ B) (A ++ I ++ B) : Int) = 0 := by omega
  have hi0 : ((commonPrefixLen (A ++ B) (A ++ I ++ B) + I.length : Nat) : Int) -
      (commonPrefixLen (A ++ B) (A ++ I ++ B) : Int) = (I.length : Int) := by
    push_cast
    ring
  simp only [hd0, hi0]
  rw [if_neg (by
    intro hc
    rcases hc with ⟨_, h0⟩
    omega)]
  have hdel : deletionPhase marks (commonPrefixLen (A ++ B) (A ++ I ++ B) : Int) 0 = marks := by
    simp [deletionPhase]
  rw [hdel, insertionPhase, if_pos (by exact_mod_cast hIlen)]

/-- Witness for `adjustMarksForChange_insertion` at a concrete input. -/
theorem adjustMarksForChange_insertion_witness :
    (("he".toList.length : Int) ≤
        (commonPrefixLen ("he".toList ++ "llo".toList)
          ("he".toList ++ "XY".toList ++ "llo".toList) : Int)) ∧
    adjustMarksForChange [⟨MType.bold, 0, 5⟩, ⟨MType.italic, 3, 5⟩, ⟨MType.underline, 0, 2⟩]
        ("he".toList ++ "llo".toList) ("he".toList ++ "XY".toList ++ "llo".toList) =
      [⟨MType.bold, 0, 7⟩, ⟨MType.italic, 5, 7⟩, ⟨MType.underline, 0, 2⟩] := by
  have h := adjustMarksForChange_insertion
    [⟨MType.bold, 0, 5⟩, ⟨MType.italic, 3, 5⟩, ⟨MType.underline, 0, 2⟩]
    "he".toList "XY".toList "llo".toList (by decide)
  exact ⟨h.1, by rw [h.2]; decide⟩

/-! ### Helper lemmas about the paginated read -/

theorem getPaginatedBlocks_hasMore (store : Store) (pageId : Nat) (lp : LimitParam)
    (cp : Option Int) (v : Bool) :
    (getPaginatedBlocks store pageId lp cp v).2.hasMore =
      (decide (parseLimit lp > 0) &&
        decide (((fetchedBlocks store pageId (parseLimit lp) cp).length : Int) >
          parseLimit lp)) := by
  rw [getPaginatedBlocks]
  split <;> rfl

theorem getPaginatedBlocks_nextCursor (store : Store) (pageId : Nat) (lp : LimitParam)
    (cp : Option Int) (v : Bool) :
    (getPaginatedBlocks store pageId lp cp v).2.nextCursor =
      (windowBlocks store pageId (parseLimit lp) cp).getLast?.map (fun b => b.order) := by
  rw [getPaginatedBlocks]
  split <;> rfl

theorem injectTitle_order (existing : List Page) (b : Block) :
    (injectTitle existing b).order = b.order := by
  rw [injectTitle]
  split <;> first | rfl | (split <;> rfl)

theorem injectTitle_id (existing : List Page) (b : Block) :
    (injectTitle existing b).id = b.id := by
  rw [injectTitle]
  split <;> first | rfl | (split <;> rfl)

theorem getPaginatedBlocks_blocks_shape (store : Store) (pageId : Nat)
    (lp : LimitParam) (cp : Option Int) (v : Bool) :
    ∃ (l : List Block) (ex : List Page),
      l.Sublist (windowBlocks store pageId (parseLimit lp) cp) ∧
      ((getPaginatedBlocks store pageId lp cp v).2.blocks = l ∨
        (getPaginatedBlocks store pageId lp cp v).2.blocks = l.map (injectTitle ex)) := by
  rw [getPaginatedBlocks]
  split
  · exact ⟨windowBlocks store pageId (parseLimit lp) cp, [], List.Sublist.refl _,
      Or.inl rfl⟩
  · refine ⟨_, _, ?_, Or.inr rfl⟩
    cases v with
    | true =>
        rw [if_pos rfl]
        exact (List.filter_sublist _).trans (List.filter_sublist _)
    | false =>
        rw [if_neg (by simp)]
        exact List.filter_sublist _

theorem getPaginatedBlocks_blocks_from_window (store : Store) (pageId : Nat)
    (lp : LimitParam) (cp : Option Int) (v : Bool) :
    ∀ b ∈ (getPaginatedBlocks store pageId lp cp v).2.blocks,
      ∃ b0 ∈ windowBlocks store pageId (parseLimit lp) cp,
        b.order = b0.order ∧ b.id = b0.id := by
  intro b hb
  rcases getPaginatedBlocks_blocks_shape store pageId lp cp v with ⟨l, ex, hsub, hl | hl⟩
  · rw [hl] at hb
    exact ⟨b, hsub.subset hb, rfl, rfl⟩
  · rw [hl] at hb
    rcases List.mem_map.mp hb with ⟨b0, hb0, rfl⟩
    exact ⟨b0, hsub.subset hb0, injectTitle_order ex b0, injectTitle_id ex b0⟩

theorem windowBlocks_mem_query (store : Store) (pageId : Nat) (limit : Int)
    (cp : Option Int) :
    ∀ b ∈ windowBlocks store pageId limit cp,
      b ∈ store.blocks ∧ b.pageId = pageId ∧ ∀ c, cp = some c → c < b.order := by
  intro b hb
  have hq : b ∈ blocksQuery store pageId cp := by
    rw [windowBlocks] at hb
    have hf : b ∈ fetchedBlocks store pageId limit cp := by
      split at hb
      · exact List.mem_of_mem_take hb
      · exact hb
    rw [fetchedBlocks] at hf
    split at hf
    · exact List.mem_of_mem_take hf
    · exact hf
  rw [blocksQuery] at hq
  have hmem := (sortByKey_perm (fun b : Block => b.order) _).subset hq
  rcases List.mem_filter.mp hmem with ⟨h1, h2⟩
  simp only [Bool.and_eq_true] at h2
  rcases h2 with ⟨h3, h4⟩
  refine ⟨h1, by simpa using h3, ?_⟩
  intro c hc
  rw [hc] at h4
  simpa using h4

theorem windowBlocks_sorted (store : Store) (pageId : Nat) (limit : Int)
    (cp : Option Int) :
    (windowBlocks store pageId limit cp).Pairwise (fun a b => a.order ≤ b.order) := by
  have hq : (blocksQuery store pageId cp).Pairwise (fun a b : Block => a.order ≤ b.order) := by
    simpa using sortByKey_sorted (fun b : Block => b.order) _
  have hf : (fetchedBlocks store pageId limit cp).Pairwise
      (fun a b : Block => a.order ≤ b.order) := by
    rw [fetchedBlocks]
    split
    · exact List.Pairwise.sublist (List.take_sublist _ _) hq
    · exact hq
  rw [windowBlocks]
  split
  · exact List.Pairwise.sublist (List.take_sublist _ _) hf
  · exact hf

/-- C10 (amended): internally, only the `"all"` mode yields the uncapped
limit value `0`, and then the window is the full sorted query — every
block of the page with `order` greater than the supplied cursor — with
`hasMore` false; a request carrying the numeric limit `0` instead falls
back to the default cap of `20` (`parseInt(limitParam) || 20`). -/
theorem limit_all_no_cap (store : Store) (pageId : Nat) (cursorParam : Option Int)
    (isPublicView : Bool) :
    parseLimit LimitParam.all = 0 ∧
    parseLimit (LimitParam.num 0) = 20 ∧
    windowBlocks store pageId (parseLimit LimitParam.all) cursorParam =
      blocksQuery store pageId cursorParam ∧
    (∀ b, b ∈ blocksQuery store pageId cursorParam ↔
      (b ∈ store.blocks ∧ b.pageId = pageId ∧
        ∀ c, cursorParam = some c → c < b.order)) ∧
    (getPaginatedBlocks store pageId LimitParam.all cursorParam isPublicView).2.hasMore =
      false := by
  refine ⟨rfl, by norm_num [parseLimit], ?_, ?_, ?_⟩
  · rw [windowBlocks, fetchedBlocks]
    norm_num [parseLimit]
  · intro b
    constructor
    · intro hb
      rw [blocksQuery] at hb
      have hmem := (sortByKey_perm (fun b : Block => b.order) _).subset hb
      rcases List.mem_filter.mp hmem with ⟨h1, h2⟩
      simp only [Bool.and_eq_true] at h2
      rcases h2 with ⟨h3, h4⟩
      refine ⟨h1, by simpa using h3, ?_⟩
      intro c hc
      rw [hc] at h4
      simpa using h4
    · rintro ⟨h1, h2, h3⟩
      rw [blocksQuery]
      apply (sortByKey_perm (fun b : Block => b.order) _).symm.subset
      apply List.mem_filter.mpr
      refine ⟨h1, by
        simp only [Bool.and_eq_true]
        refine ⟨by simpa using h2, ?_⟩
        cases cursorParam with
        | none => rfl
        | some c => simpa using h3 c rfl⟩
  · rw [getPaginatedBlocks_hasMore]
    norm_num [parseLimit]

/-- Counterexample to C10 as stated: on a page holding 21 blocks, a read
requested with numeric limit `0` returns only 20 blocks with
`hasMore = true`, while the explicit `"all"` mode returns all 21 — limit
`0` is not "no cap". -/
theorem limit_zero_cex :
    (getPaginatedBlocks
        ⟨[⟨1, "P", 1, none, false⟩],
          (List.range 21).map (fun i => ⟨i, 1, BType.paragraph, ⟨none, none, ""⟩, (i : Int), none⟩),
          100⟩ 1 (LimitParam.num 0) none false).2.blocks.length = 20 ∧
    (getPaginatedBlocks
        ⟨[⟨1, "P", 1, none, false⟩],
          (List.range 21).map (fun i => ⟨i, 1, BType.paragraph, ⟨none, none, ""⟩, (i : Int), none⟩),
          100⟩ 1 LimitParam.all none false).2.blocks.length = 21 ∧
    (getPaginatedBlocks
        ⟨[⟨1, "P", 1, none, false⟩],
          (List.range 21).map (fun i => ⟨i, 1, BType.paragraph, ⟨none, none, ""⟩, (i : Int), none⟩),
          100⟩ 1 (LimitParam.num 0) none false).2.hasMore = true := by
  decide

/-- Witness for `limit_all_no_cap` at a concrete input. -/
theorem limit_all_no_cap_witness :
    windowBlocks
        ⟨[⟨1, "P", 1, none, false⟩],
          [⟨10, 1, BType.paragraph, ⟨none, none, "a"⟩, 0, none⟩], 100⟩ 1
        (parseLimit LimitParam.all) none =
      blocksQuery
        ⟨[⟨1, "P", 1, none, false⟩],
          [⟨10, 1, BType.paragraph, ⟨none, none, "a"⟩, 0, none⟩], 100⟩ 1 none :=
  (limit_all_no_cap
    ⟨[⟨1, "P", 1, none, false⟩], [⟨10, 1, BType.paragraph, ⟨none, none, "a"⟩, 0, none⟩], 100⟩
    1 none false).2.2.1

theorem pairwise_order_map (l : List Block) (f : Block → Block)
    (hf : ∀ b, (f b).order = b.order)
    (h : l.Pairwise (fun a b => a.order ≤ b.order)) :
    (l.map f).Pairwise (fun a b => a.order ≤ b.order) := by
  rw [List.pairwise_map]
  exact h.imp (by
    intro a b hab
    rw [hf, hf]
    exact hab)

/-- C5 (amended): `nextCursor` is the order of the last block of the
fetched window before orphan filtering — equal to the last returned
block's order whenever filtering removes nothing, but left pointing past
the returned list when a trailing orphan is filtered out (null only if
the window itself is empty); `hasMore` is detected by the `limit + 1`
fetch and is true iff the underlying query holds more than `limit` rows;
and the returned blocks are non-decreasing in `order`, bounded above by
`nextCursor`, with any subsequent read at cursor `nextCursor` returning
only blocks of strictly larger order. -/
theorem pagination_cursor_correct (store : Store) (pageId : Nat) (lp : LimitParam)
    (cp : Option Int) (v : Bool) :
    (getPaginatedBlocks store pageId lp cp v).2.nextCursor =
      (windowBlocks store pageId (parseLimit lp) cp).getLast?.map (fun b => b.order) ∧
    ((getPaginatedBlocks store pageId lp cp v).2.hasMore = true ↔
      (0 < parseLimit lp ∧ parseLimit lp < ((blocksQuery store pageId cp).length : Int))) ∧
    (getPaginatedBlocks store pageId lp cp v).2.blocks.Pairwise
      (fun a b => a.order ≤ b.order) ∧
    (∀ c, (getPaginatedBlocks store pageId lp cp v).2.nextCursor = some c →
      (∀ b ∈ (getPaginatedBlocks store pageId lp cp v).2.blocks, b.order ≤ c) ∧
      (∀ (store₂ : Store) (lp₂ : LimitParam) (v₂ : Bool) b,
        b ∈ (getPaginatedBlocks store₂ pageId lp₂ (some c) v₂).2.blocks → c < b.order)) := by
  refine ⟨getPaginatedBlocks_nextCursor store pageId lp cp v, ?_, ?_, ?_⟩
  · rw [getPaginatedBlocks_hasMore, fetchedBlocks]
    by_cases hL : (0 : Int) < parseLimit lp
    · rw [if_pos hL]
      simp only [Bool.and_eq_true, decide_eq_true_eq, List.length_take, gt_iff_lt]
      constructor
      · rintro ⟨-, hgt⟩
        refine ⟨hL, ?_⟩
        rw [Nat.cast_min] at hgt
        omega
      · rintro ⟨-, hlt⟩
        refine ⟨hL, ?_⟩
        rw [Nat.cast_min]
        omega
    · rw [if_neg hL]
      simp only [Bool.and_eq_true, decide_eq_true_eq, gt_iff_lt]
  · rcases getPaginatedBlocks_blocks_shape store pageId lp cp v with ⟨l, ex, hsub, hl | hl⟩ <;>
      rw [hl]
    · exact List.Pairwise.sublist hsub (windowBlocks_sorted store pageId (parseLimit lp) cp)
    · exact pairwise_order_map l (injectTitle ex) (injectTitle_order ex)
        (List.Pairwise.sublist hsub (windowBlocks_sorted store pageId (parseLimit lp) cp))
  · intro c hc
    rw [getPaginatedBlocks_nextCursor] at hc
    rcases Option.map_eq_some'.mp hc with ⟨m, hm, hmo⟩
    constructor
    · intro b hb
      rcases getPaginatedBlocks_blocks_from_window store pageId lp cp v b hb with
        ⟨b0, hb0, ho, _⟩
      have h2 : b0.order ≤ m.order := getLast?_key_max (fun b : Block => b.order) _
        (windowBlocks_sorted store pageId (parseLimit lp) cp) b0 hb0 m hm
      have h3 : m.order = c := hmo
      omega
    · intro store₂ lp₂ v₂ b hb
      rcases getPaginatedBlocks_blocks_from_window store₂ pageId lp₂ (some c) v₂ b hb with
        ⟨b0, hb0, ho, _⟩
      have := (windowBlocks_mem_query store₂ pageId (parseLimit lp₂) (some c) b0 hb0).2.2 c rfl
      omega

/-- Counterexample to C5 as stated: a public read of a page whose only
block is a page-reference to a deleted page returns an empty block list,
yet `nextCursor` is the order of that filtered-out block, not null. -/
theorem pagination_cursor_cex :
    (getPaginatedBlocks
        ⟨[⟨1, "P", 1, none, false⟩],
          [⟨10, 1, BType.page, ⟨some (PageRef.raw 99), none, ""⟩, 5, none⟩], 100⟩
        1 LimitParam.invalid none true).2.blocks = [] ∧
    (getPaginatedBlocks
        ⟨[⟨1, "P", 1, none, false⟩],
          [⟨10, 1, BType.page, ⟨some (PageRef.raw 99), none, ""⟩, 5, none⟩], 100⟩
        1 LimitParam.invalid none true).2.nextCursor = some 5 := by
  decide

/-- Witness for `pagination_cursor_correct` at a concrete input. -/
theorem pagination_cursor_correct_witness :
    (getPaginatedBlocks
        ⟨[⟨1, "P", 1, none, false⟩],
          [⟨10, 1, BType.paragraph, ⟨none, none, "a"⟩, 0, none⟩,
            ⟨11, 1, BType.paragraph, ⟨none, none, "b"⟩, 1, none⟩], 100⟩
        1 (LimitParam.num 1) none false).2.hasMore = true :=
  ((pagination_cursor_correct
    ⟨[⟨1, "P", 1, none, false⟩],
      [⟨10, 1, BType.paragraph, ⟨none, none, "a"⟩, 0, none⟩,
        ⟨11, 1, BType.paragraph, ⟨none, none, "b"⟩, 1, none⟩], 100⟩
    1 (LimitParam.num 1) none false).2.1).mpr (by decide)

/-! ### C4: orphan cleanup on owner reads, purity of public reads -/

theorem eq_of_nodup_map (l : List α) (f : α → β) (h : (l.map f).Nodup) :
    ∀ a ∈ l, ∀ b ∈ l, f a = f b → a = b := by
  induction l with
  | nil => simp
  | cons x xs ih =>
      simp only [List.map_cons, List.nodup_cons] at h
      rcases h with ⟨hnot, hnd⟩
      intro a ha b hb hf
      rcases List.mem_cons.mp ha with rfl | ha' <;> rcases List.mem_cons.mp hb with rfl | hb'
      · rfl
      · have hn : ∀ y ∈ xs, ¬ f y = f a := by simpa using hnot
        exact absurd hf.symm (hn b hb')
      · have hn : ∀ y ∈ xs, ¬ f y = f b := by simpa using hnot
        exact absurd hf (hn a ha')
      · exact ih hnd a ha' b hb' hf

theorem public_read_pure (store : Store) (pageId : Nat) (lp : LimitParam)
    (cp : Option Int) :
    (getPaginatedBlocks store pageId lp cp true).1 = store := by
  rw [getPaginatedBlocks]
  split <;> rfl

theorem owner_read_deletes_orphan (store : Store) (pageId : Nat) (lp : LimitParam)
    (cp : Option Int) (b : Block) (r : PageRef)
    (hbw : b ∈ windowBlocks store pageId (parseLimit lp) cp)
    (hbt : b.type = BType.page)
    (hbr : b.content.pageId = some r)
    (hmiss : ∀ p ∈ store.pages, p.id ≠ r.toId) :
    ∀ b' ∈ (getPaginatedBlocks store pageId lp cp false).1.blocks, b'.id ≠ b.id := by
  intro b' hb' heq
  have hpr : isPageRefBlock b = true := by
    rw [isPageRefBlock, hbt, hbr]
    rfl
  have hrmem : r ∈ List.filterMap (fun x => x.content.pageId)
      (List.filter isPageRefBlock (windowBlocks store pageId (parseLimit lp) cp)) :=
    List.mem_filterMap.mpr ⟨b, List.mem_filter.mpr ⟨hbw, hpr⟩, hbr⟩
  have hhasF : ∀ ex : List Page, (∀ p ∈ ex, p ∈ store.pages) →
      hasPageId ex r.toId = false := by
    intro ex hsub
    cases hh : hasPageId ex r.toId
    · rfl
    · exfalso
      rw [hasPageId] at hh
      rcases List.any_eq_true.mp hh with ⟨p, hp, hpe⟩
      exact hmiss p (hsub p hp) (by simpa using hpe)
  rw [getPaginatedBlocks] at hb'
  simp only [] at hb'
  split at hb'
  · rename_i hempty
    rw [List.isEmpty_iff] at hempty
    rw [hempty] at hrmem
    simp at hrmem
  · simp only [] at hb'
    have horph : b ∈ (windowBlocks store pageId (parseLimit lp) cp).filter
        (orphanPred (existingPagesFor store
          (List.filterMap (fun x => x.content.pageId)
            (List.filter isPageRefBlock (windowBlocks store pageId (parseLimit lp) cp))))) := by
      refine List.mem_filter.mpr ⟨hbw, ?_⟩
      rw [orphanPred, hbr]
      simp only [hbt, decide_eq_true_eq]
      rw [hhasF (existingPagesFor store
          (List.filterMap (fun x => x.content.pageId)
            (List.filter isPageRefBlock (windowBlocks store pageId (parseLimit lp) cp))))
        (fun p hp => (List.mem_filter.mp hp).1)]
      simp
    revert hb'
    split
    · intro hb'
      rcases List.mem_filter.mp hb' with ⟨-, hkeep⟩
      rw [Bool.not_eq_true'] at hkeep
      rw [Bool.eq_false_iff] at hkeep
      exact hkeep (List.any_eq_true.mpr ⟨b, horph, by simpa using heq.symm⟩)
    · rename_i hcond
      intro _
      apply hcond
      rw [Bool.and_eq_true]
      refine ⟨rfl, ?_⟩
      rw [Bool.not_eq_true']
      exact List.isEmpty_eq_false.mpr (List.ne_nil_of_mem horph)

theorem read_excludes_missing_target (store : Store) (pageId : Nat) (lp : LimitParam)
    (cp : Option Int) (v : Bool) (b : Block) (r : PageRef)
    (hnd : (store.blocks.map (fun x => x.id)).Nodup)
    (hbw : b ∈ windowBlocks store pageId (parseLimit lp) cp)
    (hbt : b.type = BType.page)
    (hbr : b.content.pageId = some r)
    (hmiss : ∀ p ∈ store.pages, p.id ≠ r.toId) :
    ∀ b' ∈ (getPaginatedBlocks store pageId lp cp v).2.blocks, b'.id ≠ b.id := by
  intro b' hb' heq
  have hpr : isPageRefBlock b = true := by
    rw [isPageRefBlock, hbt, hbr]
    rfl
  have hrmem : r ∈ List.filterMap (fun x => x.content.pageId)
      (List.filter isPageRefBlock (windowBlocks store pageId (parseLimit lp) cp)) :=
    List.mem_filterMap.mpr ⟨b, List.mem_filter.mpr ⟨hbw, hpr⟩, hbr⟩
  have hhasF : hasPageId (existingPagesFor store
      (List.filterMap (fun x => x.content.pageId)
        (List.filter isPageRefBlock (windowBlocks store pageId (parseLimit lp) cp))))
      r.toId = false := by
    cases hh : hasPageId (existingPagesFor store
        (List.filterMap (fun x => x.content.pageId)
          (List.filter isPageRefBlock (windowBlocks store pageId (parseLimit lp) cp))))
        r.toId
    · rfl
    · exfalso
      rw [hasPageId] at hh
      rcases List.any_eq_true.mp hh with ⟨p, hp, hpe⟩
      exact hmiss p ((List.mem_filter.mp hp).1) (by simpa using hpe)
  rw [getPaginatedBlocks] at hb'
  simp only [] at hb'
  split at hb'
  · rename_i hempty
    rw [List.isEmpty_iff] at hempty
    rw [hempty] at hrmem
    simp at hrmem
  · simp only [] at hb'
    rcases List.mem_map.mp hb' with ⟨x, hx, rfl⟩
    rw [injectTitle_id] at heq
    have hx1 : x ∈ List.filter (keepPred (existingPagesFor store
        (List.filterMap (fun x => x.content.pageId)
          (List.filter isPageRefBlock (windowBlocks store pageId (parseLimit lp) cp)))))
        (windowBlocks store pageId (parseLimit lp) cp) := by
      split at hx
      · exact (List.mem_filter.mp hx).1
      · exact hx
    rcases List.mem_filter.mp hx1 with ⟨hxw, hxkeep⟩
    have hxs : x ∈ store.blocks :=
      (windowBlocks_mem_query store pageId (parseLimit lp) cp x hxw).1
    have hbs : b ∈ store.blocks :=
      (windowBlocks_mem_query store pageId (parseLimit lp) cp b hbw).1
    have hxb : x = b := eq_of_nodup_map store.blocks (fun x => x.id) hnd x hxs b hbs heq
    rw [hxb, keepPred, hbr] at hxkeep
    simp [hbt, hhasF] at hxkeep

theorem public_read_excludes_nonpublic (store : Store) (pageId : Nat) (lp : LimitParam)
    (cp : Option Int) (b : Block) (r : PageRef)
    (hnd : (store.blocks.map (fun x => x.id)).Nodup)
    (hbw : b ∈ windowBlocks store pageId (parseLimit lp) cp)
    (hbt : b.type = BType.page)
    (hbr : b.content.pageId = some r)
    (hpriv : ∀ p ∈ store.pages, p.id = r.toId → p.isPublic = false) :
    ∀ b' ∈ (getPaginatedBlocks store pageId lp cp true).2.blocks, b'.id ≠ b.id := by
  intro b' hb' heq
  have hpr : isPageRefBlock b = true := by
    rw [isPageRefBlock, hbt, hbr]
    rfl
  have hrmem : r ∈ List.filterMap (fun x => x.content.pageId)
      (List.filter isPageRefBlock (windowBlocks store pageId (parseLimit lp) cp)) :=
    List.mem_filterMap.mpr ⟨b, List.mem_filter.mpr ⟨hbw, hpr⟩, hbr⟩
  have hpub : publicKeepPred (existingPagesFor store
      (List.filterMap (fun x => x.content.pageId)
        (List.filter isPageRefBlock (windowBlocks store pageId (parseLimit lp) cp)))) b =
      false := by
    rw [publicKeepPred, hbr]
    cases hl : lookupPageId (existingPagesFor store
        (List.filterMap (fun x => x.content.pageId)
          (List.filter isPageRefBlock (windowBlocks store pageId (parseLimit lp) cp))))
        r.toId with
    | none => simp [hl, hbt]
    | some p =>
        have hpmem : p ∈ existingPagesFor store
            (List.filterMap (fun x => x.content.pageId)
              (List.filter isPageRefBlock (windowBlocks store pageId (parseLimit lp) cp))) := by
          rw [lookupPageId] at hl
          exact List.mem_of_find?_eq_some hl
        have hpid : p.id = r.toId := by
          rw [lookupPageId] at hl
          simpa using List.find?_some hl
        have hppriv : p.isPublic = false :=
          hpriv p ((List.mem_filter.mp hpmem).1) hpid
        simp [hl, hppriv, hbt]
  rw [getPaginatedBlocks] at hb'
  simp only [] at hb'
  split at hb'
  · rename_i hempty
    rw [List.isEmpty_iff] at hempty
    rw [hempty] at hrmem
    simp at hrmem
  · simp only [] at hb'
    rcases List.mem_map.mp hb' with ⟨x, hx, rfl⟩
    rw [injectTitle_id] at heq
    rw [if_pos trivial] at hx
    rcases List.mem_filter.mp hx with ⟨hx1, hxpub⟩
    have hxw : x ∈ windowBlocks store pageId (parseLimit lp) cp := (List.mem_filter.mp hx1).1
    have hxs : x ∈ store.blocks :=
      (windowBlocks_mem_query store pageId (parseLimit lp) cp x hxw).1
    have hbs : b ∈ store.blocks :=
      (windowBlocks_mem_query store pageId (parseLimit lp) cp b hbw).1
    have hxb : x = b := eq_of_nodup_map store.blocks (fun x => x.id) hnd x hxs b hbs heq
    rw [hxb, hpub] at hxpub
    exact absurd hxpub (by simp)

/-- C4: given a page-reference block (in the fetched window) whose target
page no longer exists, an owner-view paginated read deletes that block
from the store and excludes it from the returned list, while a public-view
read never mutates the store at all and merely omits the block from the
result; and the public view also filters out every page-reference block
whose target page exists but is not public. -/
theorem orphan_reconciliation (store : Store) (pageId : Nat) (lp : LimitParam)
    (cp : Option Int) (b : Block) (r : PageRef)
    (hnd : (store.blocks.map (fun x => x.id)).Nodup)
    (hbw : b ∈ windowBlocks store pageId (parseLimit lp) cp)
    (hbt : b.type = BType.page)
    (hbr : b.content.pageId = some r) :
    (getPaginatedBlocks store pageId lp cp true).1 = store ∧
    ((∀ p ∈ store.pages, p.id ≠ r.toId) →
      (∀ b' ∈ (getPaginatedBlocks store pageId lp cp false).1.blocks, b'.id ≠ b.id) ∧
      (∀ b' ∈ (getPaginatedBlocks store pageId lp cp false).2.blocks, b'.id ≠ b.id) ∧
      (∀ b' ∈ (getPaginatedBlocks store pageId lp cp true).2.blocks, b'.id ≠ b.id)) ∧
    ((∀ p ∈ store.pages, p.id = r.toId → p.isPublic = false) →
      ∀ b' ∈ (getPaginatedBlocks store pageId lp cp true).2.blocks, b'.id ≠ b.id) :=
  ⟨public_read_pure store pageId lp cp,
    fun hmiss =>
      ⟨owner_read_deletes_orphan store pageId lp cp b r hbw hbt hbr hmiss,
        read_excludes_missing_target store pageId lp cp false b r hnd hbw hbt hbr hmiss,
        read_excludes_missing_target store pageId lp cp true b r hnd hbw hbt hbr hmiss⟩,
    fun hpriv =>
      public_read_excludes_nonpublic store pageId lp cp b r hnd hbw hbt hbr hpriv⟩

/-- Witness for `orphan_reconciliation` at a concrete input. -/
theorem orphan_reconciliation_witness :
    (getPaginatedBlocks
        ⟨[⟨1, "P", 1, none, false⟩],
          [⟨10, 1, BType.page, ⟨some (PageRef.raw 99), none, ""⟩, 5, none⟩], 100⟩
        1 LimitParam.invalid none true).1 =
      ⟨[⟨1, "P", 1, none, false⟩],
        [⟨10, 1, BType.page, ⟨some (PageRef.raw 99), none, ""⟩, 5, none⟩], 100⟩ :=
  (orphan_reconciliation
    ⟨[⟨1, "P", 1, none, false⟩],
      [⟨10, 1, BType.page, ⟨some (PageRef.raw 99), none, ""⟩, 5, none⟩], 100⟩
    1 LimitParam.invalid none
    ⟨10, 1, BType.page, ⟨some (PageRef.raw 99), none, ""⟩, 5, none⟩ (PageRef.raw 99)
    (by decide) (by decide) (by decide) (by decide)).1

/-! ### C9: import service -/

theorem forall₂_enumFrom_map (R : α → β → Prop) (f : Nat × α → β) :
    ∀ (l : List α) (n : Nat), (∀ i x, R x (f (i, x))) →
      List.Forall₂ R l ((l.enumFrom n).map f)
  | [], _, _ => by simp
  | x :: xs, n, h => by
      rw [List.enumFrom_cons]
      exact List.Forall₂.cons (h n x) (forall₂_enumFrom_map R f xs (n + 1) h)

theorem pairwise_fst_lt_enumFrom (l : List α) (n : Nat) :
    (l.enumFrom n).Pairwise (fun p q => p.1 < q.1) := by
  induction l generalizing n with
  | nil => simp
  | cons x xs ih =>
      rw [List.enumFrom_cons]
      refine List.pairwise_cons.mpr ⟨?_, ih (n + 1)⟩
      intro q hq
      have := List.le_fst_of_mem_enumFrom hq
      omega

theorem snd_mem_enumFrom : ∀ (l : List α) (n : Nat) (p : Nat × α),
    p ∈ l.enumFrom n → p.2 ∈ l
  | [], _, _, h => by simp at h
  | x :: xs, n, p, h => by
      rw [List.enumFrom_cons] at h
      rcases List.mem_cons.mp h with rfl | h'
      · simp
      · exact List.mem_cons_of_mem x (snd_mem_enumFrom xs (n + 1) p h')

/-- C9 (amended): a valid import from a public source into an owned target
clones the first at most 50 non-page-reference source blocks in ascending
source order (a 70-block source yields exactly 50), appending them to the
unmodified existing blocks with fresh ids and strictly increasing orders
all larger than every pre-existing order of the target page; the target's
title is replaced — by the source's title, or by "Imported Page" when the
source's is empty — exactly when the target's trimmed title is "Untitled"
or empty; and self-import, non-public sources and sources with no
cloneable blocks are rejected. -/
theorem import_correct (store : Store) (userId targetPageId sourcePageId : Nat)
    (tp sp : Page) (srcB : List Block)
    (hts : targetPageId ≠ sourcePageId)
    (htp : store.pages.find? (fun p => p.id == targetPageId && p.ownerId == userId) = some tp)
    (hsp : store.pages.find? (fun p => p.id == sourcePageId) = some sp)
    (hpub : sp.isPublic = true)
    (hfresh : ∀ b ∈ store.blocks, b.id < store.nextId)
    (hsrcB : srcB = (sortByKey (fun b => b.order)
      (store.blocks.filter (fun b =>
        b.pageId == sourcePageId && !(decide (b.type = BType.page))))).take 50)
    (hne : srcB ≠ []) :
    (∃ s' res, importBlocks store userId targetPageId sourcePageId = Except.ok (s', res) ∧
      res.importedCount = srcB.length ∧
      srcB.length = min 50 (store.blocks.filter (fun b =>
        b.pageId == sourcePageId && !(decide (b.type = BType.page)))).length ∧
      s'.blocks = store.blocks ++ res.blocks ∧
      (∀ c ∈ res.blocks, c.pageId = targetPageId ∧ c.type ≠ BType.page ∧
        ∀ b ∈ store.blocks, c.id ≠ b.id) ∧
      List.Forall₂ (fun src c => c.type = src.type ∧ c.content = src.content ∧
        c.backgroundColor = src.backgroundColor) srcB res.blocks ∧
      res.blocks.Pairwise (fun a b => a.order < b.order) ∧
      (∀ b ∈ store.blocks, b.pageId = targetPageId → ∀ c ∈ res.blocks, b.order < c.order) ∧
      res.updatedTitle = (if strTrim tp.title = "Untitled" ∨ strTrim tp.title = "" then
          some (if sp.title = "" then "Imported Page" else sp.title) else none) ∧
      (¬(strTrim tp.title = "Untitled" ∨ strTrim tp.title = "") → s'.pages = store.pages)) ∧
    (∀ (st : Store) (u t : Nat), importBlocks st u t t = Except.error ApiError.badRequest) ∧
    (∀ (st : Store) (u t s : Nat) (tp₂ sp₂ : Page), t ≠ s →
      st.pages.find? (fun p => p.id == t && p.ownerId == u) = some tp₂ →
      st.pages.find? (fun p => p.id == s) = some sp₂ → sp₂.isPublic = false →
      importBlocks st u t s = Except.error ApiError.forbidden) ∧
    (∀ (st : Store) (u t s : Nat) (tp₂ sp₂ : Page), t ≠ s →
      st.pages.find? (fun p => p.id == t && p.ownerId == u) = some tp₂ →
      st.pages.find? (fun p => p.id == s) = some sp₂ → sp₂.isPublic = true →
      (sortByKey (fun b => b.order) (st.blocks.filter (fun b =>
        b.pageId == s && !(decide (b.type = BType.page))))).take 50 = [] →
      importBlocks st u t s = Except.error ApiError.badRequest) := by
  refine ⟨?_, ?_, ?_, ?_⟩
  · have hsE : ((sortByKey (fun b => b.order)
        (store.blocks.filter (fun b =>
          b.pageId == sourcePageId && !(decide (b.type = BType.page))))).take 50).isEmpty =
        false := List.isEmpty_eq_false.mpr (hsrcB ▸ hne)
    simp only [importBlocks, if_neg hts, htp, hsp, hpub, hsE, Bool.not_true,
      Bool.false_eq_true, if_false]
    refine ⟨_, _, rfl, ?_, ?_, rfl, ?_, ?_, ?_, ?_, rfl, ?_⟩
    · simp [hsrcB, List.enum_length]
    · rw [hsrcB, List.length_take, (sortByKey_perm (fun b : Block => b.order) _).length_eq]
    · intro c hc
      rcases List.mem_map.mp hc with ⟨p, hp, rfl⟩
      have hsnd : p.2 ∈ (sortByKey (fun b => b.order)
          (store.blocks.filter (fun b =>
            b.pageId == sourcePageId && !(decide (b.type = BType.page))))).take 50 := by
        have := snd_mem_enumFrom _ 0 p hp
        exact this
      refine ⟨rfl, ?_, ?_⟩
      · have hmem : p.2 ∈ store.blocks.filter (fun b =>
            b.pageId == sourcePageId && !(decide (b.type = BType.page))) :=
          (sortByKey_perm (fun b : Block => b.order) _).subset
            (List.mem_of_mem_take hsnd)
        have hpred := (List.mem_filter.mp hmem).2
        rw [Bool.and_eq_true] at hpred
        have := hpred.2
        simp only [Bool.not_eq_true', decide_eq_false_iff_not] at this
        exact this
      · intro b hb
        have := hfresh b hb
        show store.nextId + p.1 ≠ b.id
        omega
    · rw [hsrcB]
      exact forall₂_enumFrom_map _ _ _ 0 (fun i x => ⟨rfl, rfl, rfl⟩)
    · rw [List.pairwise_map]
      refine (pairwise_fst_lt_enumFrom _ 0).imp ?_
      intro p q hpq
      show _ + (p.1 : Int) < _ + (q.1 : Int)
      omega
    · intro b hb hbp c hc
      rcases List.mem_map.mp hc with ⟨p, hp, rfl⟩
      have hbf : b ∈ store.blocks.filter (fun b => b.pageId == targetPageId) :=
        List.mem_filter.mpr ⟨hb, by simpa using hbp⟩
      have hbs : b ∈ sortByKey (fun b : Block => b.order)
          (store.blocks.filter (fun b => b.pageId == targetPageId)) :=
        (sortByKey_perm (fun b : Block => b.order) _).symm.subset hbf
      cases hlast : (sortByKey (fun b : Block => b.order)
          (store.blocks.filter (fun b => b.pageId == targetPageId))).getLast? with
      | none =>
          rw [List.getLast?_eq_none_iff] at hlast
          rw [hlast] at hbs
          simp at hbs
      | some m =>
          have hle : b.order ≤ m.order :=
            getLast?_key_max (fun b : Block => b.order) _
              (by simpa using sortByKey_sorted (fun b : Block => b.order) _) b hbs m hlast
          simp only [hlast]
          show b.order < m.order + 1 + (p.1 : Int)
          omega
    · intro h
      simp only [if_neg h]
  · intro st u t
    rw [importBlocks, if_pos rfl]
  · intro st u t s tp₂ sp₂ h1 h2 h3 h4
    simp only [importBlocks, if_neg h1, h2, h3, h4, Bool.not_false, if_true]
  · intro st u t s tp₂ sp₂ h1 h2 h3 h4 h5
    have hsE : ((sortByKey (fun b => b.order) (st.blocks.filter (fun b =>
        b.pageId == s && !(decide (b.type = BType.page))))).take 50).isEmpty = true := by
      rw [h5]
      rfl
    simp only [importBlocks, if_neg h1, h2, h3, h4, hsE, Bool.not_true,
      Bool.false_eq_true, if_false, if_true]

/-- Counterexample to C9 as stated: a target page whose stored title is the
empty string — not the default placeholder "Untitled" — still gets its
title replaced by the source's on import. -/
theorem import_title_cex :
    (importBlocks
        ⟨[⟨1, "", 1, none, false⟩, ⟨2, "S", 2, none, true⟩],
          [⟨20, 2, BType.paragraph, ⟨none, none, "x"⟩, 0, none⟩], 100⟩ 1 1 2).toOption.map
        (fun r => r.2.updatedTitle) = some (some "S") ∧
    ("" : String) ≠ "Untitled" := by
  constructor
  · decide
  · decide

/-- Witness for `import_correct` at a concrete input. -/
theorem import_correct_witness :
    ∃ s' res, importBlocks
        ⟨[⟨1, "Untitled", 1, none, false⟩, ⟨2, "Src", 2, none, true⟩],
          [⟨20, 2, BType.paragraph, ⟨none, none, "x"⟩, 0, none⟩], 100⟩ 1 1 2 =
        Except.ok (s', res) ∧ res.importedCount = 1 := by
  obtain ⟨⟨s', res, hok, hcount, -⟩, -, -, -⟩ :=
    import_correct
      ⟨[⟨1, "Untitled", 1, none, false⟩, ⟨2, "Src", 2, none, true⟩],
        [⟨20, 2, BType.paragraph, ⟨none, none, "x"⟩, 0, none⟩], 100⟩ 1 1 2
      ⟨1, "Untitled", 1, none, false⟩ ⟨2, "Src", 2, none, true⟩
      [⟨20, 2, BType.paragraph, ⟨none, none, "x"⟩, 0, none⟩]
      (by decide) (by decide) (by decide) (by decide) (by decide) (by decide) (by decide)
  refine ⟨s', res, hok, ?_⟩
  rw [hcount]
  rfl

/-! ### C3: frame property of the bulk save -/

theorem mem_updateFirst_of_ne (id : Nat) (d : BlockData) :
    ∀ (l : List Block) (b : Block), b ∈ l → b.id ≠ id → b ∈ updateFirst id d l
  | [], b, h, _ => by simp at h
  | x :: xs, b, h, hne => by
      rw [updateFirst]
      split
      · rename_i hx
        rcases List.mem_cons.mp h with rfl | h'
        · exact absurd hx hne
        · exact List.mem_cons_of_mem _ h'
      · rcases List.mem_cons.mp h with rfl | h'
        · exact List.mem_cons_self _ _
        · exact List.mem_cons_of_mem _ (mem_updateFirst_of_ne id d xs b h' hne)

theorem buildSyncOps_foldl_frame (pageId : Nat) (b : Block) :
    ∀ (bs : List InBlock) (i c : Nat) (cur : List Block),
      b ∈ cur → b.id < c → (∀ inb ∈ bs, inb.id ≠ some b.id) →
      b ∈ (buildSyncOps pageId bs i c).1.foldl applyOp cur
  | [], _, _, cur, hb, _, _ => hb
  | inb :: rest, i, c, cur, hb, hlt, hns => by
      rw [buildSyncOps]
      cases hid : inb.id with
      | some v =>
          simp only [hid]
          have hv : v ≠ b.id := by
            intro h
            exact hns inb (by simp) (by rw [hid, h])
          have hb' : b ∈ applyOp cur (Op.updateOneUpsert v
              ⟨pageId, inb.type, inb.content, (i : Int), inb.backgroundColor⟩) := by
            rw [applyOp]
            split
            · exact mem_updateFirst_of_ne v _ cur b hb (fun h => hv h.symm)
            · exact List.mem_append_left _ hb
          exact buildSyncOps_foldl_frame pageId b rest (i + 1) c _ hb' hlt
            (fun x hx => hns x (by simp [hx]))
      | none =>
          simp only [hid]
          have hb' : b ∈ applyOp cur (Op.insertOne c
              ⟨pageId, inb.type, inb.content, (i : Int), inb.backgroundColor⟩) :=
            List.mem_append_left _ hb
          exact buildSyncOps_foldl_frame pageId b rest (i + 1) (c + 1) _ hb' (by omega)
            (fun x hx => hns x (by simp [hx]))

/-- C3 (amended): a save targeting page `P` leaves untouched every block of
every other page whose id does not appear among the submitted valid ids —
but only those: the per-block upsert filters on `_id` alone, so a
submitted entry carrying the valid id of a block belonging to another page
updates and re-parents that block to `P` (see `sync_foreign_block_cex`). -/
theorem sync_frame (store : Store) (userId pageId : Nat) (B : List InBlock) (b : Block)
    (hfresh : ∀ x ∈ store.blocks, x.id < store.nextId)
    (hb : b ∈ store.blocks)
    (hbp : b.pageId ≠ pageId)
    (hnotsub : ∀ inb ∈ B, inb.id ≠ some b.id) :
    ∀ s' ret, syncPageBlocks store userId pageId B = Except.ok (s', ret) →
      b ∈ s'.blocks := by
  intro s' ret hok
  rw [syncPageBlocks] at hok
  split at hok
  · simp only [Except.ok.injEq, Prod.mk.injEq] at hok
    rcases hok with ⟨hs', -⟩
    have hmem0 : b ∈ (buildSyncOps pageId B 0 store.nextId).1.foldl applyOp store.blocks :=
      buildSyncOps_foldl_frame pageId b B 0 store.nextId store.blocks hb (hfresh b hb)
        hnotsub
    have hmem : b ∈ ((buildSyncOps pageId B 0 store.nextId).1 ++
        [if (buildSyncOps pageId B 0 store.nextId).2.1.isEmpty then
            Op.deleteManyPage pageId
          else Op.deleteManyNotIn pageId (buildSyncOps pageId B 0 store.nextId).2.1]).foldl
        applyOp store.blocks := by
      rw [List.foldl_append]
      simp only [List.foldl_cons, List.foldl_nil]
      split
      · rw [applyOp]
        refine List.mem_filter.mpr ⟨hmem0, ?_⟩
        simp [hbp]
      · rw [applyOp]
        refine List.mem_filter.mpr ⟨hmem0, ?_⟩
        simp [hbp]
    rw [← hs']
    exact hmem
  · exact absurd hok (by simp)

/-- Counterexample to C3 as stated: a save of page 1 by its owner that
submits the valid id of a block belonging to page 2 (owned by another
user) mutates and re-parents that block — after the save the foreign block
no longer exists in its original form, and a block with its id now lives
in page 1 with the submitted content. -/
theorem sync_foreign_block_cex :
    ((syncPageBlocks
        ⟨[⟨1, "P", 1, none, false⟩, ⟨2, "Q", 2, none, false⟩],
          [⟨10, 2, BType.paragraph, ⟨none, none, "x"⟩, 0, none⟩], 100⟩ 1 1
        [⟨some 10, BType.quote, ⟨none, none, "y"⟩, none⟩]).toOption.map (fun r =>
      decide ((⟨10, 2, BType.paragraph, ⟨none, none, "x"⟩, 0, none⟩ : Block) ∈
        r.1.blocks))) = some false ∧
    ((syncPageBlocks
        ⟨[⟨1, "P", 1, none, false⟩, ⟨2, "Q", 2, none, false⟩],
          [⟨10, 2, BType.paragraph, ⟨none, none, "x"⟩, 0, none⟩], 100⟩ 1 1
        [⟨some 10, BType.quote, ⟨none, none, "y"⟩, none⟩]).toOption.map (fun r =>
      decide ((⟨10, 1, BType.quote, ⟨none, none, "y"⟩, 0, none⟩ : Block) ∈
        r.1.blocks))) = some true := by
  decide

/-- Witness for `sync_frame` at a concrete input. -/
theorem sync_frame_witness :
    (⟨10, 2, BType.paragraph, ⟨none, none, "x"⟩, 0, none⟩ : Block) ∈
      (⟨[⟨1, "P", 1, none, false⟩, ⟨2, "Q", 2, none, false⟩],
        [⟨10, 2, BType.paragraph, ⟨none, none, "x"⟩, 0, none⟩,
          ⟨100, 1, BType.quote, ⟨none, none, "y"⟩, 0, none⟩], 101⟩ : Store).blocks :=
  sync_frame
    ⟨[⟨1, "P", 1, none, false⟩, ⟨2, "Q", 2, none, false⟩],
      [⟨10, 2, BType.paragraph, ⟨none, none, "x"⟩, 0, none⟩], 100⟩ 1 1
    [⟨none, BType.quote, ⟨none, none, "y"⟩, none⟩]
    ⟨10, 2, BType.paragraph, ⟨none, none, "x"⟩, 0, none⟩
    (by decide) (by decide) (by decide) (by decide)
    ⟨[⟨1, "P", 1, none, false⟩, ⟨2, "Q", 2, none, false⟩],
      [⟨10, 2, BType.paragraph, ⟨none, none, "x"⟩, 0, none⟩,
        ⟨100, 1, BType.quote, ⟨none, none, "y"⟩, 0, none⟩], 101⟩
    [⟨100, 1, BType.quote, ⟨none, none, "y"⟩, 0, none⟩]
    (by rfl)

/-! ### C1: the save-replace postcondition -/

/-- The per-entry write targets of a save: entry `k` of the incoming list
becomes the stored block with the client's valid id (or the next fresh id)
and `order` forced to the running array index `i + k`. -/
def syncExpected (pageId : Nat) : List InBlock → Nat → Nat → List Block
  | [], _, _ => []
  | b :: rest, i, c =>
      match b.id with
      | some id =>
          BlockData.toBlock ⟨pageId, b.type, b.content, (i : Int), b.backgroundColor⟩ id ::
            syncExpected pageId rest (i + 1) c
      | none =>
          BlockData.toBlock ⟨pageId, b.type, b.content, (i : Int), b.backgroundColor⟩ c ::
            syncExpected pageId rest (i + 1) (c + 1)

theorem buildSyncOps_ids (pageId : Nat) :
    ∀ (bs : List InBlock) (i c : Nat),
      (buildSyncOps pageId bs i c).2.1 = (syncExpected pageId bs i c).map (fun x => x.id)
  | [], _, _ => rfl
  | b :: rest, i, c => by
      rw [buildSyncOps, syncExpected]
      cases b.id <;> simp [buildSyncOps_ids pageId rest]

theorem syncExpected_pageId (pageId : Nat) :
    ∀ (bs : List InBlock) (i c : Nat), ∀ x ∈ syncExpected pageId bs i c, x.pageId = pageId
  | [], _, _ => by simp [syncExpected]
  | b :: rest, i, c => by
      rw [syncExpected]
      cases b.id with
      | some id =>
          intro x hx
          rcases List.mem_cons.mp hx with rfl | hx'
          · rfl
          · exact syncExpected_pageId pageId rest (i + 1) c x hx'
      | none =>
          intro x hx
          rcases List.mem_cons.mp hx with rfl | hx'
          · rfl
          · exact syncExpected_pageId pageId rest (i + 1) (c + 1) x hx'

theorem syncExpected_id_bound (pageId : Nat) :
    ∀ (bs : List InBlock) (i c : Nat)
      (_ : ∀ inb ∈ bs, ∀ v, inb.id = some v → v < c),
      ∀ x ∈ syncExpected pageId bs i c,
        (∃ inb ∈ bs, inb.id = some x.id) ∨ c ≤ x.id
  | [], _, _, _ => by simp [syncExpected]
  | b :: rest, i, c, hvc => by
      rw [syncExpected]
      cases hid : b.id with
      | some id =>
          intro x hx
          rcases List.mem_cons.mp hx with rfl | hx'
          · exact Or.inl ⟨b, by simp, hid⟩
          · rcases syncExpected_id_bound pageId rest (i + 1) c
                (fun inb h v hv => hvc inb (by simp [h]) v hv) x hx' with ⟨inb, h1, h2⟩ | h
            · exact Or.inl ⟨inb, by simp [h1], h2⟩
            · exact Or.inr h
      | none =>
          intro x hx
          rcases List.mem_cons.mp hx with rfl | hx'
          · exact Or.inr (le_refl _)
          · rcases syncExpected_id_bound pageId rest (i + 1) (c + 1)
                (fun inb h v hv => by
                  have := hvc inb (by simp [h]) v hv
                  omega) x hx' with ⟨inb, h1, h2⟩ | h
            · exact Or.inl ⟨inb, by simp [h1], h2⟩
            · exact Or.inr (by omega)

theorem syncExpected_nodup_ids (pageId : Nat) :
    ∀ (bs : List InBlock) (i c : Nat)
      (_ : ∀ inb ∈ bs, ∀ v, inb.id = some v → v < c)
      (_ : (bs.filterMap (fun x => x.id)).Nodup),
      ((syncExpected pageId bs i c).map (fun x => x.id)).Nodup
  | [], _, _, _, _ => by simp [syncExpected]
  | b :: rest, i, c, hvc, hdist => by
      rw [syncExpected]
      cases hid : b.id with
      | some v =>
          have hdist' : (rest.filterMap (fun x => x.id)).Nodup ∧
              v ∉ rest.filterMap (fun x => x.id) := by
            rw [List.filterMap_cons, hid] at hdist
            rw [List.nodup_cons] at hdist
            exact ⟨hdist.2, hdist.1⟩
          simp only [List.map_cons, List.nodup_cons, BlockData.toBlock_id]
          constructor
          · intro hvmem
            rcases List.mem_map.mp hvmem with ⟨x, hx, hxid⟩
            rcases syncExpected_id_bound pageId rest (i + 1) c
                (fun inb h v' hv => hvc inb (by simp [h]) v' hv) x hx with ⟨inb, h1, h2⟩ | h
            · exact hdist'.2 (List.mem_filterMap.mpr ⟨inb, h1, by rw [h2, hxid]⟩)
            · have := hvc b (by simp) v hid
              omega
          · exact syncExpected_nodup_ids pageId rest (i + 1) c
              (fun inb h v' hv => hvc inb (by simp [h]) v' hv) hdist'.1
      | none =>
          have hdist' : (rest.filterMap (fun x => x.id)).Nodup := by
            rw [List.filterMap_cons, hid] at hdist
            exact hdist
          simp only [List.map_cons, List.nodup_cons, BlockData.toBlock_id]
          constructor
          · intro hcmem
            rcases List.mem_map.mp hcmem with ⟨x, hx, hxid⟩
            rcases syncExpected_id_bound pageId rest (i + 1) (c + 1)
                (fun inb h v' hv => by
                  have := hvc inb (by simp [h]) v' hv
                  omega) x hx with ⟨inb, h1, h2⟩ | h
            · have := hvc inb (by simp [h1]) x.id h2
              omega
            · omega
          · exact syncExpected_nodup_ids pageId rest (i + 1) (c + 1)
              (fun inb h v' hv => by
                have := hvc inb (by simp [h]) v' hv
                omega) hdist'

theorem updateFirst_map_id (id : Nat) (d : BlockData) :
    ∀ l : List Block, (updateFirst id d l).map (fun x => x.id) = l.map (fun x => x.id)
  | [] => rfl
  | b :: bs => by
      rw [updateFirst]
      split
      · rename_i h
        simp [h]
      · simp [updateFirst_map_id id d bs]

theorem mem_updateFirst_weak (id : Nat) (d : BlockData) :
    ∀ (l : List Block) (x : Block), x ∈ updateFirst id d l → x ∈ l ∨ x = d.toBlock id
  | [], x, h => by simp [updateFirst] at h
  | b :: bs, x, h => by
      rw [updateFirst] at h
      split at h
      · rcases List.mem_cons.mp h with rfl | h'
        · exact Or.inr rfl
        · exact Or.inl (List.mem_cons_of_mem _ h')
      · rcases List.mem_cons.mp h with rfl | h'
        · exact Or.inl (List.mem_cons_self _ _)
        · rcases mem_updateFirst_weak id d bs x h' with h'' | h''
          · exact Or.inl (List.mem_cons_of_mem _ h'')
          · exact Or.inr h''

theorem mem_updateFirst_iff (id : Nat) (d : BlockData) :
    ∀ (l : List Block), ((l.map (fun x => x.id)).Nodup) →
      (l.any (fun b => b.id == id) = true) →
      ∀ x, (x ∈ updateFirst id d l ↔ (x ∈ l ∧ x.id ≠ id) ∨ x = d.toBlock id)
  | [], _, hany, _ => by simp at hany
  | b :: bs, hnd, hany, x => by
      rw [updateFirst]
      split
      · rename_i hb
        constructor
        · intro hx
          rcases List.mem_cons.mp hx with rfl | hx'
          · exact Or.inr rfl
          · refine Or.inl ⟨List.mem_cons_of_mem _ hx', ?_⟩
            intro hxid
            rw [List.map_cons, List.nodup_cons] at hnd
            exact hnd.1 (List.mem_map.mpr ⟨x, hx', by rw [hxid, hb]⟩)
        · rintro (⟨hx, hxid⟩ | rfl)
          · rcases List.mem_cons.mp hx with rfl | hx'
            · exact absurd hb hxid
            · exact List.mem_cons_of_mem _ hx'
          · exact List.mem_cons_self _ _
      · rename_i hb
        have hany' : bs.any (fun b => b.id == id) = true := by
          rcases List.any_eq_true.mp hany with ⟨y, hy, hye⟩
          rcases List.mem_cons.mp hy with rfl | hy'
          · exact absurd (by simpa using hye) hb
          · exact List.any_eq_true.mpr ⟨y, hy', hye⟩
        rw [List.map_cons, List.nodup_cons] at hnd
        constructor
        · intro hx
          rcases List.mem_cons.mp hx with rfl | hx'
          · exact Or.inl ⟨List.mem_cons_self _ _, hb⟩
          · rcases (mem_updateFirst_iff id d bs hnd.2 hany' x).mp hx' with ⟨h1, h2⟩ | h1
            · exact Or.inl ⟨List.mem_cons_of_mem _ h1, h2⟩
            · exact Or.inr h1
        · rintro (⟨hx, hxid⟩ | rfl)
          · rcases List.mem_cons.mp hx with rfl | hx'
            · exact List.mem_cons_self _ _
            · exact List.mem_cons_of_mem _
                ((mem_updateFirst_iff id d bs hnd.2 hany' x).mpr (Or.inl ⟨hx', hxid⟩))
          · exact List.mem_cons_of_mem _
              ((mem_updateFirst_iff id d bs hnd.2 hany' _).mpr (Or.inr rfl))

theorem mem_applyOp_upsert (id : Nat) (d : BlockData) (l : List Block)
    (hnd : (l.map (fun x => x.id)).Nodup) :
    ∀ x, x ∈ applyOp l (Op.updateOneUpsert id d) ↔
      ((x ∈ l ∧ x.id ≠ id) ∨ x = d.toBlock id) := by
  intro x
  rw [applyOp]
  split
  · rename_i hany
    exact mem_updateFirst_iff id d l hnd hany x
  · rename_i hany
    have hnone : ∀ y ∈ l, y.id ≠ id := by
      intro y hy hyid
      exact hany (List.any_eq_true.mpr ⟨y, hy, by simpa using hyid⟩)
    constructor
    · intro hx
      rcases List.mem_append.mp hx with hx' | hx'
      · exact Or.inl ⟨hx', hnone x hx'⟩
      · simp only [List.mem_singleton] at hx'
        exact Or.inr hx'
    · rintro (⟨hx, -⟩ | rfl)
      · exact List.mem_append_left _ hx
      · exact List.mem_append_right _ (by simp)

theorem nodup_applyOp_upsert (id : Nat) (d : BlockData) (l : List Block)
    (hnd : (l.map (fun x => x.id)).Nodup) :
    ((applyOp l (Op.updateOneUpsert id d)).map (fun x => x.id)).Nodup := by
  rw [applyOp]
  split
  · rw [updateFirst_map_id]
    exact hnd
  · rename_i hany
    rw [List.map_append]
    simp only [List.map_cons, List.map_nil, BlockData.toBlock_id]
    rw [List.nodup_append]
    refine ⟨hnd, by simp, ?_⟩
    intro a ha
    simp only [List.mem_singleton]
    intro hae
    rcases List.mem_map.mp ha with ⟨y, hy, hyid⟩
    exact hany (List.any_eq_true.mpr ⟨y, hy, by simp [hyid, hae]⟩)

theorem sync_foldl_spec (pageId : Nat) :
    ∀ (bs : List InBlock) (i c : Nat) (cur : List Block),
      ((cur.map (fun x => x.id)).Nodup) →
      (∀ x ∈ cur, x.id < c) →
      (∀ inb ∈ bs, ∀ v, inb.id = some v → v < c) →
      ((bs.filterMap (fun x => x.id)).Nodup) →
      (((buildSyncOps pageId bs i c).1.foldl applyOp cur).map (fun x => x.id)).Nodup ∧
      (∀ x, x ∈ (buildSyncOps pageId bs i c).1.foldl applyOp cur ↔
        ((x ∈ cur ∧ x.id ∉ (syncExpected pageId bs i c).map (fun y => y.id)) ∨
          x ∈ syncExpected pageId bs i c))
  | [], i, c, cur, hnd, hlt, hvc, hdist => by
      refine ⟨hnd, ?_⟩
      intro x
      simp [buildSyncOps, syncExpected]
  | inb :: rest, i, c, cur, hnd, hlt, hvc, hdist => by
      cases hid : inb.id with
      | some v =>
          have hvlt : v < c := hvc inb (by simp) v hid
          have hnd' := nodup_applyOp_upsert v
            ⟨pageId, inb.type, inb.content, (i : Int), inb.backgroundColor⟩ cur hnd
          have hlt' : ∀ x ∈ applyOp cur (Op.updateOneUpsert v
              ⟨pageId, inb.type, inb.content, (i : Int), inb.backgroundColor⟩), x.id < c := by
            intro x hx
            rcases (mem_applyOp_upsert v _ cur hnd x).mp hx with ⟨hx', -⟩ | rfl
            · exact hlt x hx'
            · simpa using hvlt
          have hdist' : (rest.filterMap (fun x => x.id)).Nodup ∧
              v ∉ rest.filterMap (fun x => x.id) := by
            rw [List.filterMap_cons, hid, List.nodup_cons] at hdist
            exact ⟨hdist.2, hdist.1⟩
          obtain ⟨hndF, hmemF⟩ := sync_foldl_spec pageId rest (i + 1) c
            (applyOp cur (Op.updateOneUpsert v
              ⟨pageId, inb.type, inb.content, (i : Int), inb.backgroundColor⟩))
            hnd' hlt' (fun x hx v' hv => hvc x (by simp [hx]) v' hv) hdist'.1
          have hvnot : v ∉ (syncExpected pageId rest (i + 1) c).map (fun y => y.id) := by
            intro hvmem
            rcases List.mem_map.mp hvmem with ⟨y, hy, hyid⟩
            rcases syncExpected_id_bound pageId rest (i + 1) c
                (fun x hx v' hv => hvc x (by simp [hx]) v' hv) y hy with ⟨x, h1, h2⟩ | h
            · exact hdist'.2 (List.mem_filterMap.mpr ⟨x, h1, by rw [h2, hyid]⟩)
            · omega
          have hops : (buildSyncOps pageId (inb :: rest) i c).1.foldl applyOp cur =
              (buildSyncOps pageId rest (i + 1) c).1.foldl applyOp
                (applyOp cur (Op.updateOneUpsert v
                  ⟨pageId, inb.type, inb.content, (i : Int), inb.backgroundColor⟩)) := by
            rw [buildSyncOps, hid]
            rfl
          rw [hops, syncExpected, hid]
          refine ⟨hndF, ?_⟩
          intro x
          rw [hmemF x]
          rw [mem_applyOp_upsert v _ cur hnd x]
          simp only [List.map_cons, List.mem_cons, BlockData.toBlock_id]
          constructor
          · rintro (⟨⟨hxcur, hxne⟩ | rfl, hnotin⟩ | hexp)
            · refine Or.inl ⟨hxcur, ?_⟩
              push_neg
              exact ⟨hxne, hnotin⟩
            · exact Or.inr (Or.inl rfl)
            · exact Or.inr (Or.inr hexp)
          · rintro (⟨hxcur, hnotor⟩ | rfl | hexp)
            · push_neg at hnotor
              exact Or.inl ⟨Or.inl ⟨hxcur, hnotor.1⟩, hnotor.2⟩
            · exact Or.inl ⟨Or.inr rfl, by simpa using hvnot⟩
            · exact Or.inr hexp
      | none =>
          have hnd' : ((cur ++ [BlockData.toBlock
              ⟨pageId, inb.type, inb.content, (i : Int), inb.backgroundColor⟩ c]).map
              (fun x => x.id)).Nodup := by
            rw [List.map_append]
            simp only [List.map_cons, List.map_nil, BlockData.toBlock_id]
            rw [List.nodup_append]
            refine ⟨hnd, by simp, ?_⟩
            intro a ha
            simp only [List.mem_singleton]
            intro hae
            rcases List.mem_map.mp ha with ⟨y, hy, hyid⟩
            have := hlt y hy
            omega
          have hlt' : ∀ x ∈ cur ++ [BlockData.toBlock
              ⟨pageId, inb.type, inb.content, (i : Int), inb.backgroundColor⟩ c], x.id < c + 1 := by
            intro x hx
            rcases List.mem_append.mp hx with hx' | hx'
            · have := hlt x hx'
              omega
            · simp only [List.mem_singleton] at hx'
              rw [hx']
              simp
          have hdist' : (rest.filterMap (fun x => x.id)).Nodup := by
            rw [List.filterMap_cons, hid] at hdist
            exact hdist
          obtain ⟨hndF, hmemF⟩ := sync_foldl_spec pageId rest (i + 1) (c + 1)
            (cur ++ [BlockData.toBlock
              ⟨pageId, inb.type, inb.content, (i : Int), inb.backgroundColor⟩ c])
            hnd' hlt' (fun x hx v' hv => by
              have := hvc x (by simp [hx]) v' hv
              omega) hdist'
          have hcnot : c ∉ (syncExpected pageId rest (i + 1) (c + 1)).map (fun y => y.id) := by
            intro hcmem
            rcases List.mem_map.mp hcmem with ⟨y, hy, hyid⟩
            rcases syncExpected_id_bound pageId rest (i + 1) (c + 1)
                (fun x hx v' hv => by
                  have := hvc x (by simp [hx]) v' hv
                  omega) y hy with ⟨x, h1, h2⟩ | h
            · have := hvc x (by simp [h1]) y.id h2
              omega
            · omega
          have hops : (buildSyncOps pageId (inb :: rest) i c).1.foldl applyOp cur =
              (buildSyncOps pageId rest (i + 1) (c + 1)).1.foldl applyOp
                (cur ++ [BlockData.toBlock
                  ⟨pageId, inb.type, inb.content, (i : Int), inb.backgroundColor⟩ c]) := by
            rw [buildSyncOps, hid]
            rfl
          rw [hops, syncExpected, hid]
          refine ⟨hndF, ?_⟩
          intro x
          rw [hmemF x]
          simp only [List.map_cons, List.mem_cons, BlockData.toBlock_id, List.mem_append,
            List.mem_singleton, List.mem_nil_iff, or_false]
          constructor
          · rintro (⟨hxcur | rfl, hnotin⟩ | hexp)
            · refine Or.inl ⟨hxcur, ?_⟩
              push_neg
              refine ⟨?_, hnotin⟩
              intro hxc
              exact absurd hxc (by
                have := hlt x hxcur
                omega)
            · exact Or.inr (Or.inl rfl)
            · exact Or.inr (Or.inr hexp)
          · rintro (⟨hxcur, hnotor⟩ | rfl | hexp)
            · push_neg at hnotor
              exact Or.inl ⟨Or.inl hxcur, hnotor.2⟩
            · exact Or.inl ⟨Or.inr rfl, by simpa using hcnot⟩
            · exact Or.inr hexp

theorem syncExpected_orders (pageId : Nat) :
    ∀ (bs : List InBlock) (i c : Nat),
      (syncExpected pageId bs i c).map (fun x => x.order) =
        (List.range bs.length).map (fun k => ((i + k : Nat) : Int))
  | [], _, _ => by simp [syncExpected]
  | b :: rest, i, c => by
      have hrange : (List.range (rest.length + 1)).map (fun k => ((i + k : Nat) : Int)) =
          ((i : Int)) :: (List.range rest.length).map (fun k => (((i + 1) + k : Nat) : Int)) := by
        rw [List.range_succ_eq_map, List.map_cons, List.map_map]
        congr 1
        apply List.map_congr_left
        intro a _
        simp only [Function.comp_apply, Nat.succ_eq_add_one]
        congr 1
        omega
      rw [syncExpected]
      cases b.id with
      | some v =>
          simp only [List.map_cons, BlockData.toBlock_order, List.length_cons, hrange,
            syncExpected_orders pageId rest (i + 1) c]
      | none =>
          simp only [List.map_cons, BlockData.toBlock_order, List.length_cons, hrange,
            syncExpected_orders pageId rest (i + 1) (c + 1)]

theorem syncExpected_order_lower (pageId : Nat) :
    ∀ (bs : List InBlock) (i c : Nat), ∀ x ∈ syncExpected pageId bs i c, (i : Int) ≤ x.order
  | [], _, _ => by simp [syncExpected]
  | b :: rest, i, c => by
      rw [syncExpected]
      cases b.id with
      | some v =>
          intro x hx
          rcases List.mem_cons.mp hx with rfl | hx'
          · simp
          · have := syncExpected_order_lower pageId rest (i + 1) c x hx'
            omega
      | none =>
          intro x hx
          rcases List.mem_cons.mp hx with rfl | hx'
          · simp
          · have := syncExpected_order_lower pageId rest (i + 1) (c + 1) x hx'
            omega

theorem syncExpected_pairwise_order (pageId : Nat) :
    ∀ (bs : List InBlock) (i c : Nat),
      (syncExpected pageId bs i c).Pairwise (fun a b => a.order < b.order)
  | [], _, _ => by simp [syncExpected]
  | b :: rest, i, c => by
      rw [syncExpected]
      cases b.id with
      | some v =>
          refine List.pairwise_cons.mpr ⟨?_, syncExpected_pairwise_order pageId rest (i + 1) c⟩
          intro x hx
          have := syncExpected_order_lower pageId rest (i + 1) c x hx
          simp only [BlockData.toBlock_order]
          omega
      | none =>
          refine List.pairwise_cons.mpr
            ⟨?_, syncExpected_pairwise_order pageId rest (i + 1) (c + 1)⟩
          intro x hx
          have := syncExpected_order_lower pageId rest (i + 1) (c + 1) x hx
          simp only [BlockData.toBlock_order]
          omega

theorem syncExpected_forall₂ (pageId : Nat) :
    ∀ (bs : List InBlock) (i c : Nat),
      List.Forall₂ (fun inb out => out.type = inb.type ∧ out.content = inb.content ∧
        out.backgroundColor = inb.backgroundColor ∧ ∀ v, inb.id = some v → out.id = v)
        bs (syncExpected pageId bs i c)
  | [], _, _ => by simp [syncExpected]
  | b :: rest, i, c => by
      rw [syncExpected]
      cases hid : b.id with
      | some v =>
          refine List.Forall₂.cons ⟨rfl, rfl, rfl, ?_⟩ (syncExpected_forall₂ pageId rest (i + 1) c)
          intro v' hv'
          rw [hid] at hv'
          simpa using hv'
      | none =>
          refine List.Forall₂.cons ⟨rfl, rfl, rfl, ?_⟩
            (syncExpected_forall₂ pageId rest (i + 1) (c + 1))
          intro v' hv'
          rw [hid] at hv'
          simp at hv'

theorem sortByKey_eq_of_perm (key : α → Int) (l exp : List α)
    (hperm : l.Perm exp) (hsorted : exp.Pairwise (fun a b => key a < key b)) :
    sortByKey key l = exp := by
  haveI : IsAntisymm α (fun a b => key a < key b) :=
    ⟨fun a b hab hba => ((lt_irrefl _) (lt_trans hab hba)).elim⟩
  have h1 : (sortByKey key l).Perm exp := (sortByKey_perm key l).trans hperm
  have hkeynd : (exp.map key).Nodup := by
    have hp : (exp.map key).Pairwise (fun a b => a < b) := List.pairwise_map.mpr hsorted
    exact hp.imp (fun h => ne_of_lt h)
  have hlkeynd : ((sortByKey key l).map key).Nodup := (h1.map key).nodup_iff.mpr hkeynd
  have hne : (sortByKey key l).Pairwise (fun a b => key a ≠ key b) :=
    List.pairwise_map.mp hlkeynd
  have hlt : (sortByKey key l).Pairwise (fun a b => key a < key b) :=
    ((sortByKey_sorted key l).and hne).imp (fun h => lt_of_le_of_ne h.1 h.2)
  exact List.eq_of_perm_of_sorted h1 hlt hsorted

/-- C1 (amended): provided the client-supplied valid ids are pairwise
distinct, a successful save of list `B` makes the store's block set for
the page exactly `B`'s snapshot: the route's final order-sorted read
returns one block per entry of `B`, in order, with `type`, `content` and
`backgroundColor` from the entry, `order` equal to the entry's index, and
ids preserved where the client supplied valid ones; a save of the empty
list deletes every block of the page. -/
theorem sync_save_replace (store : Store) (userId pageId : Nat) (B : List InBlock)
    (hown : store.pages.any (fun p => p.id == pageId && p.ownerId == userId) = true)
    (hnd : (store.blocks.map (fun x => x.id)).Nodup)
    (hfresh : ∀ b ∈ store.blocks, b.id < store.nextId)
    (hvc : ∀ inb ∈ B, ∀ v, inb.id = some v → v < store.nextId)
    (hdist : (B.filterMap (fun x => x.id)).Nodup) :
    ∃ s' ret, syncPageBlocks store userId pageId B = Except.ok (s', ret) ∧
      List.Forall₂ (fun inb out => out.type = inb.type ∧ out.content = inb.content ∧
        out.backgroundColor = inb.backgroundColor ∧
        ∀ v, inb.id = some v → out.id = v) B ret ∧
      ret.map (fun x => x.order) = (List.range B.length).map (fun k => Int.ofNat k) ∧
      (∀ x, (x ∈ s'.blocks ∧ x.pageId = pageId) ↔ x ∈ ret) ∧
      (B = [] → ∀ x ∈ s'.blocks, x.pageId ≠ pageId) := by
  obtain ⟨hndF, hmemF⟩ := sync_foldl_spec pageId B 0 store.nextId store.blocks hnd hfresh
    hvc hdist
  refine ⟨{ store with
      blocks := ((buildSyncOps pageId B 0 store.nextId).1 ++
        [if (buildSyncOps pageId B 0 store.nextId).2.1.isEmpty then
            Op.deleteManyPage pageId
          else Op.deleteManyNotIn pageId (buildSyncOps pageId B 0 store.nextId).2.1]).foldl
        applyOp store.blocks,
      nextId := (buildSyncOps pageId B 0 store.nextId).2.2 },
    sortByKey (fun b => b.order)
      ((((buildSyncOps pageId B 0 store.nextId).1 ++
        [if (buildSyncOps pageId B 0 store.nextId).2.1.isEmpty then
            Op.deleteManyPage pageId
          else Op.deleteManyNotIn pageId (buildSyncOps pageId B 0 store.nextId).2.1]).foldl
        applyOp store.blocks).filter (fun b => b.pageId == pageId)), ?_, ?_⟩
  · rw [syncPageBlocks, if_pos hown]
  have hmain : (∀ x, (x ∈ ((buildSyncOps pageId B 0 store.nextId).1 ++
        [if (buildSyncOps pageId B 0 store.nextId).2.1.isEmpty then
            Op.deleteManyPage pageId
          else Op.deleteManyNotIn pageId (buildSyncOps pageId B 0 store.nextId).2.1]).foldl
        applyOp store.blocks ∧ x.pageId = pageId) ↔
        x ∈ syncExpected pageId B 0 store.nextId) ∧
      sortByKey (fun b => b.order)
        ((((buildSyncOps pageId B 0 store.nextId).1 ++
          [if (buildSyncOps pageId B 0 store.nextId).2.1.isEmpty then
              Op.deleteManyPage pageId
            else Op.deleteManyNotIn pageId (buildSyncOps pageId B 0 store.nextId).2.1]).foldl
          applyOp store.blocks).filter (fun b => b.pageId == pageId)) =
        syncExpected pageId B 0 store.nextId := by
    by_cases hB : B = []
    · subst hB
      have hnewB : ((buildSyncOps pageId ([] : List InBlock) 0 store.nextId).1 ++
          [if (buildSyncOps pageId ([] : List InBlock) 0 store.nextId).2.1.isEmpty then
              Op.deleteManyPage pageId
            else Op.deleteManyNotIn pageId
              (buildSyncOps pageId ([] : List InBlock) 0 store.nextId).2.1]).foldl
          applyOp store.blocks =
          store.blocks.filter (fun b => !(b.pageId == pageId)) := rfl
      rw [hnewB]
      constructor
      · intro x
        constructor
        · rintro ⟨hx, hpid⟩
          have := (List.mem_filter.mp hx).2
          rw [Bool.not_eq_true'] at this
          simp only [beq_eq_false_iff_ne, ne_eq] at this
          exact absurd hpid this
        · intro hx
          simp [syncExpected] at hx
      · have : (store.blocks.filter (fun b => !(b.pageId == pageId))).filter
            (fun b => b.pageId == pageId) = [] := by
          apply List.filter_eq_nil_iff.mpr
          intro a ha
          have := (List.mem_filter.mp ha).2
          rw [Bool.not_eq_true'] at this
          simp [this]
        rw [this]
        rfl
    · have hlen : B.length = (syncExpected pageId B 0 store.nextId).length :=
        (syncExpected_forall₂ pageId B 0 store.nextId).length_eq
      have hEne : syncExpected pageId B 0 store.nextId ≠ [] := by
        intro h
        rw [h] at hlen
        simp at hlen
        exact hB hlen
      have hidsE : (buildSyncOps pageId B 0 store.nextId).2.1.isEmpty = false := by
        rw [buildSyncOps_ids]
        exact List.isEmpty_eq_false.mpr (by
          intro h
          exact hEne (by simpa using (List.map_eq_nil_iff.mp h)))
      have hnewB : ((buildSyncOps pageId B 0 store.nextId).1 ++
          [if (buildSyncOps pageId B 0 store.nextId).2.1.isEmpty then
              Op.deleteManyPage pageId
            else Op.deleteManyNotIn pageId
              (buildSyncOps pageId B 0 store.nextId).2.1]).foldl applyOp store.blocks =
          ((buildSyncOps pageId B 0 store.nextId).1.foldl applyOp store.blocks).filter
            (fun b => !(b.pageId == pageId &&
              !((buildSyncOps pageId B 0 store.nextId).2.1.any (fun k => k == b.id)))) := by
        rw [List.foldl_append, hidsE]
        simp only [Bool.false_eq_true, if_false, List.foldl_cons, List.foldl_nil]
        rfl
      have hPmem : ∀ x, (x ∈ ((buildSyncOps pageId B 0 store.nextId).1 ++
          [if (buildSyncOps pageId B 0 store.nextId).2.1.isEmpty then
              Op.deleteManyPage pageId
            else Op.deleteManyNotIn pageId
              (buildSyncOps pageId B 0 store.nextId).2.1]).foldl applyOp store.blocks ∧
          x.pageId = pageId) ↔ x ∈ syncExpected pageId B 0 store.nextId := by
        intro x
        rw [hnewB]
        constructor
        · rintro ⟨hx, hpid⟩
          rcases List.mem_filter.mp hx with ⟨hF, hkeep⟩
          have hany : ((buildSyncOps pageId B 0 store.nextId).2.1.any
              (fun k => k == x.id)) = true := by
            by_contra hc
            rw [Bool.not_eq_true] at hc
            rw [hpid] at hkeep
            simp [hc] at hkeep
          rw [buildSyncOps_ids] at hany
          rcases List.any_eq_true.mp hany with ⟨a, ha, hae⟩
          have hxid : x.id ∈ (syncExpected pageId B 0 store.nextId).map (fun y => y.id) := by
            have : a = x.id := by simpa using hae
            rw [← this]
            exact ha
          rcases (hmemF x).mp hF with ⟨-, hnotin⟩ | hE
          · exact absurd hxid hnotin
          · exact hE
        · intro hxE
          have hpid : x.pageId = pageId := syncExpected_pageId pageId B 0 store.nextId x hxE
          refine ⟨List.mem_filter.mpr ⟨(hmemF x).mpr (Or.inr hxE), ?_⟩, hpid⟩
          have hany : ((buildSyncOps pageId B 0 store.nextId).2.1.any
              (fun k => k == x.id)) = true := by
            rw [buildSyncOps_ids]
            exact List.any_eq_true.mpr ⟨x.id, List.mem_map.mpr ⟨x, hxE, rfl⟩, by simp⟩
          simp [hany]
      refine ⟨hPmem, ?_⟩
      have hndNew : ((((buildSyncOps pageId B 0 store.nextId).1 ++
          [if (buildSyncOps pageId B 0 store.nextId).2.1.isEmpty then
              Op.deleteManyPage pageId
            else Op.deleteManyNotIn pageId
              (buildSyncOps pageId B 0 store.nextId).2.1]).foldl applyOp
            store.blocks).map (fun x => x.id)).Nodup := by
        rw [hnewB]
        exact List.Nodup.sublist (List.Sublist.map _ (List.filter_sublist _)) hndF
      have hndL : (((((buildSyncOps pageId B 0 store.nextId).1 ++
          [if (buildSyncOps pageId B 0 store.nextId).2.1.isEmpty then
              Op.deleteManyPage pageId
            else Op.deleteManyNotIn pageId
              (buildSyncOps pageId B 0 store.nextId).2.1]).foldl applyOp
            store.blocks).filter (fun b => b.pageId == pageId)).map (fun x => x.id)).Nodup :=
        List.Nodup.sublist (List.Sublist.map _ (List.filter_sublist _)) hndNew
      have hndE : ((syncExpected pageId B 0 store.nextId).map (fun x => x.id)).Nodup :=
        syncExpected_nodup_ids pageId B 0 store.nextId hvc hdist
      have hperm : ((((buildSyncOps pageId B 0 store.nextId).1 ++
          [if (buildSyncOps pageId B 0 store.nextId).2.1.isEmpty then
              Op.deleteManyPage pageId
            else Op.deleteManyNotIn pageId
              (buildSyncOps pageId B 0 store.nextId).2.1]).foldl applyOp
            store.blocks).filter (fun b => b.pageId == pageId)).Perm
          (syncExpected pageId B 0 store.nextId) := by
        rw [List.perm_ext_iff_of_nodup (List.Nodup.of_map _ hndL) (List.Nodup.of_map _ hndE)]
        intro a
        rw [List.mem_filter]
        rw [← hPmem a]
        constructor
        · rintro ⟨h1, h2⟩
          exact ⟨h1, by simpa using h2⟩
        · rintro ⟨h1, h2⟩
          exact ⟨h1, by simpa using h2⟩
      exact sortByKey_eq_of_perm _ _ _ hperm (syncExpected_pairwise_order pageId B 0 store.nextId)
  refine ⟨?_, ?_, ?_, ?_⟩
  · rw [hmain.2]
    exact syncExpected_forall₂ pageId B 0 store.nextId
  · rw [hmain.2, syncExpected_orders]
    apply List.map_congr_left
    intro k _
    simp
  · intro x
    rw [hmain.2]
    exact hmain.1 x
  · intro hB x hx hpid
    have := (hmain.1 x).mp ⟨hx, hpid⟩
    rw [hB] at this
    simp [syncExpected] at this

/-- Counterexample to C1 as stated: a save whose two entries carry the
same valid id 5 does not make the page's block set a two-element snapshot
of `B` — both upserts target `_id = 5`, the second overwrites the first,
and the full read returns a single block. -/
theorem sync_duplicate_id_cex :
    ((syncPageBlocks ⟨[⟨1, "P", 1, none, false⟩], [], 100⟩ 1 1
        [⟨some 5, BType.paragraph, ⟨none, none, "a"⟩, none⟩,
         ⟨some 5, BType.quote, ⟨none, none, "b"⟩, none⟩]).toOption.map
      (fun r => r.2.length)) = some 1 ∧
    ([⟨some 5, BType.paragraph, ⟨none, none, "a"⟩, none⟩,
      ⟨some 5, BType.quote, ⟨none, none, "b"⟩, none⟩] : List InBlock).length = 2 := by
  constructor
  · rfl
  · rfl

/-- Witness for `sync_save_replace` at a concrete input: page 1 holding
one old block, saved with one id-bearing entry and one fresh entry. -/
theorem sync_save_replace_witness :
    ∃ (s' : Store) (ret : List Block), syncPageBlocks ⟨[⟨1, "P", 1, none, false⟩],
        [⟨7, 1, BType.paragraph, ⟨none, none, "old"⟩, 0, none⟩], 100⟩ 1 1
        [⟨some 7, BType.quote, ⟨none, none, "a"⟩, none⟩,
         ⟨none, BType.paragraph, ⟨none, none, "b"⟩, none⟩] = Except.ok (s', ret) ∧
      List.Forall₂ (fun inb out => out.type = inb.type ∧ out.content = inb.content ∧
        out.backgroundColor = inb.backgroundColor ∧
        ∀ v, inb.id = some v → out.id = v)
        ([⟨some 7, BType.quote, ⟨none, none, "a"⟩, none⟩,
          ⟨none, BType.paragraph, ⟨none, none, "b"⟩, none⟩] : List InBlock) ret ∧
      ret.map (fun x => x.order) =
        (List.range ([⟨some 7, BType.quote, ⟨none, none, "a"⟩, none⟩,
          ⟨none, BType.paragraph, ⟨none, none, "b"⟩, none⟩] : List InBlock).length).map
          (fun k => Int.ofNat k) ∧
      (∀ x, (x ∈ s'.blocks ∧ x.pageId = 1) ↔ x ∈ ret) ∧
      (([⟨some 7, BType.quote, ⟨none, none, "a"⟩, none⟩,
         ⟨none, BType.paragraph, ⟨none, none, "b"⟩, none⟩] : List InBlock) = [] →
        ∀ x ∈ s'.blocks, x.pageId ≠ 1) :=
  sync_save_replace
    ⟨[⟨1, "P", 1, none, false⟩],
      [⟨7, 1, BType.paragraph, ⟨none, none, "old"⟩, 0, none⟩], 100⟩ 1 1
    [⟨some 7, BType.quote, ⟨none, none, "a"⟩, none⟩,
     ⟨none, BType.paragraph, ⟨none, none, "b"⟩, none⟩]
    (by decide) (by decide) (by decide) (by decide) (by decide)

/-! ### C2: cascading page deletion -/

/-- One parent-to-child step of the owner-scoped page tree: some page
document records `child` as a page with `parentPageId = parent` owned by
`userId`.  `collectDescendantPages` follows exactly these links. -/
def childRel (store : Store) (userId : Nat) (parent child : Nat) : Prop :=
  ∃ p ∈ store.pages, p.id = child ∧ p.parentPageId = some parent ∧ p.ownerId = userId

theorem childRel_parent_unique {store : Store} {userId : Nat}
    (hndp : (store.pages.map (fun p => p.id)).Nodup) {y₁ y₂ x : Nat}
    (h₁ : childRel store userId y₁ x) (h₂ : childRel store userId y₂ x) : y₁ = y₂ := by
  obtain ⟨p₁, hp₁, hid₁, hpar₁, -⟩ := h₁
  obtain ⟨p₂, hp₂, hid₂, hpar₂, -⟩ := h₂
  have hpp : p₁ = p₂ := List.inj_on_of_nodup_map hndp hp₁ hp₂ (hid₁.trans hid₂.symm)
  rw [hpp, hpar₂] at hpar₁
  exact (Option.some_inj.mp hpar₁).symm

theorem desc_rank_le {store : Store} {userId : Nat} {rank : Nat → Nat}
    (hrank : ∀ p ∈ store.pages, ∀ par, p.parentPageId = some par → rank p.id < rank par)
    {a b : Nat} (h : Relation.ReflTransGen (childRel store userId) a b) :
    rank b ≤ rank a := by
  induction h with
  | refl => exact le_refl _
  | tail hd st ih =>
      obtain ⟨p, hp, hid, hpar, -⟩ := st
      have := hrank p hp _ hpar
      rw [hid] at this
      omega

theorem no_desc_cycle {store : Store} {userId : Nat} {rank : Nat → Nat}
    (hrank : ∀ p ∈ store.pages, ∀ par, p.parentPageId = some par → rank p.id < rank par)
    {pid c : Nat} (h₁ : childRel store userId pid c)
    (h₂ : Relation.ReflTransGen (childRel store userId) c pid) : False := by
  obtain ⟨p, hp, hid, hpar, -⟩ := h₁
  have h3 := hrank p hp _ hpar
  rw [hid] at h3
  have h4 := desc_rank_le hrank h₂
  omega

theorem desc_branch_eq {store : Store} {userId : Nat} {rank : Nat → Nat}
    (hrank : ∀ p ∈ store.pages, ∀ par, p.parentPageId = some par → rank p.id < rank par)
    (hndp : (store.pages.map (fun p => p.id)).Nodup) {pid c₁ c₂ x : Nat}
    (h₁ : childRel store userId pid c₁) (h₂ : childRel store userId pid c₂)
    (d₁ : Relation.ReflTransGen (childRel store userId) c₁ x)
    (d₂ : Relation.ReflTransGen (childRel store userId) c₂ x) : c₁ = c₂ := by
  revert d₂
  induction d₁ with
  | refl =>
      intro d₂
      rcases Relation.ReflTransGen.cases_tail d₂ with h | ⟨y, hy, hyx⟩
      · exact h
      · have hey : y = pid := childRel_parent_unique hndp hyx h₁
        rw [hey] at hy
        exact absurd hy (fun hcon => no_desc_cycle hrank h₂ hcon)
  | tail hd st ih =>
      intro d₂
      rcases Relation.ReflTransGen.cases_tail d₂ with h | ⟨y, hy, hyb⟩
      · rw [h] at st
        have heb : _ = pid := childRel_parent_unique hndp st h₂
        rw [heb] at hd
        exact absurd hd (fun hcon => no_desc_cycle hrank h₁ hcon)
      · have hey : y = _ := childRel_parent_unique hndp hyb st
        rw [hey] at hy
        exact ih hy

theorem childPageIds_mem_iff (store : Store) (userId pid : Nat) (c : Nat) :
    c ∈ childPageIds store userId pid ↔ childRel store userId pid c := by
  rw [childPageIds]
  constructor
  · intro hc
    rcases List.mem_map.mp hc with ⟨p, hpf, hpid⟩
    rcases List.mem_filter.mp hpf with ⟨hp, hcond⟩
    simp only [Bool.and_eq_true, beq_iff_eq] at hcond
    exact ⟨p, hp, hpid, hcond.1, hcond.2⟩
  · rintro ⟨p, hp, hid, hpar, howner⟩
    exact List.mem_map.mpr ⟨p, List.mem_filter.mpr ⟨hp, by simp [hpar, howner]⟩, hid⟩

theorem childRel_rank_lt {store : Store} {userId : Nat} {rank : Nat → Nat}
    (hrank : ∀ p ∈ store.pages, ∀ par, p.parentPageId = some par → rank p.id < rank par)
    {pid c : Nat} (h : childRel store userId pid c) : rank c < rank pid := by
  obtain ⟨p, hp, hid, hpar, -⟩ := h
  have := hrank p hp _ hpar
  rw [hid] at this
  exact this

theorem collect_mem_iff (store : Store) (userId : Nat) {rank : Nat → Nat}
    (hrank : ∀ p ∈ store.pages, ∀ par, p.parentPageId = some par → rank p.id < rank par) :
    ∀ (fuel pid : Nat), rank pid < fuel → ∀ x,
      (x ∈ collectDescendantPages store userId fuel pid ↔
        Relation.ReflTransGen (childRel store userId) pid x)
  | 0, pid => by
      intro h
      exact absurd h (Nat.not_lt_zero _)
  | fuel + 1, pid => by
      intro h x
      rw [collectDescendantPages, Relation.ReflTransGen.cases_head_iff]
      simp only [List.mem_cons, List.mem_flatMap]
      constructor
      · rintro (hx | ⟨c, hc, hxc⟩)
        · exact Or.inl hx.symm
        · have hrel := (childPageIds_mem_iff store userId pid c).mp hc
          have hlt : rank c < fuel := by
            have := childRel_rank_lt hrank hrel
            omega
          exact Or.inr ⟨c, hrel, (collect_mem_iff store userId hrank fuel c hlt x).mp hxc⟩
      · rintro (hx | ⟨c, hrel, hdesc⟩)
        · exact Or.inl hx.symm
        · have hlt : rank c < fuel := by
            have := childRel_rank_lt hrank hrel
            omega
          exact Or.inr ⟨c, (childPageIds_mem_iff store userId pid c).mpr hrel,
            (collect_mem_iff store userId hrank fuel c hlt x).mpr hdesc⟩

theorem collect_nodup (store : Store) (userId : Nat) {rank : Nat → Nat}
    (hrank : ∀ p ∈ store.pages, ∀ par, p.parentPageId = some par → rank p.id < rank par)
    (hndp : (store.pages.map (fun p => p.id)).Nodup) :
    ∀ (fuel pid : Nat), rank pid < fuel →
      (collectDescendantPages store userId fuel pid).Nodup
  | 0, pid => by
      intro h
      exact absurd h (Nat.not_lt_zero _)
  | fuel + 1, pid => by
      intro h
      rw [collectDescendantPages, List.nodup_cons]
      constructor
      · intro hmem
        rcases List.mem_flatMap.mp hmem with ⟨c, hc, hpid⟩
        have hrel := (childPageIds_mem_iff store userId pid c).mp hc
        have hlt : rank c < fuel := by
          have := childRel_rank_lt hrank hrel
          omega
        have hdesc := (collect_mem_iff store userId hrank fuel c hlt pid).mp hpid
        exact no_desc_cycle hrank hrel hdesc
      · rw [List.nodup_flatMap]
        constructor
        · intro c hc
          have hrel := (childPageIds_mem_iff store userId pid c).mp hc
          have hlt : rank c < fuel := by
            have := childRel_rank_lt hrank hrel
            omega
          exact collect_nodup store userId hrank hndp fuel c hlt
        · have hcnd : (childPageIds store userId pid).Nodup := by
            rw [childPageIds]
            exact List.Nodup.sublist (List.Sublist.map _ (List.filter_sublist _)) hndp
          refine List.Pairwise.imp_of_mem ?_ hcnd
          intro c₁ c₂ hc₁ hc₂ hne a ha₁ ha₂
          have hrel₁ := (childPageIds_mem_iff store userId pid c₁).mp hc₁
          have hrel₂ := (childPageIds_mem_iff store userId pid c₂).mp hc₂
          have hlt₁ : rank c₁ < fuel := by
            have := childRel_rank_lt hrank hrel₁
            omega
          have hlt₂ : rank c₂ < fuel := by
            have := childRel_rank_lt hrank hrel₂
            omega
          exact hne (desc_branch_eq hrank hndp hrel₁ hrel₂
            ((collect_mem_iff store userId hrank fuel c₁ hlt₁ a).mp ha₁)
            ((collect_mem_iff store userId hrank fuel c₂ hlt₂ a).mp ha₂))

theorem desc_mem_ids {store : Store} {userId : Nat} {a x : Nat}
    (h : Relation.ReflTransGen (childRel store userId) a x)
    (ha : a ∈ store.pages.map (fun p => p.id)) :
    x ∈ store.pages.map (fun p => p.id) := by
  rcases Relation.ReflTransGen.cases_tail h with h | ⟨y, -, hyx⟩
  · rw [h]
    exact ha
  · obtain ⟨p, hp, hid, -, -⟩ := hyx
    exact List.mem_map.mpr ⟨p, hp, hid⟩

theorem length_filter_not_add (p : α → Bool) (l : List α) :
    (l.filter (fun a => !(p a))).length + (l.filter p).length = l.length := by
  induction l with
  | nil => rfl
  | cons a l ih =>
      by_cases h : p a = true <;>
        simp [List.filter_cons, h, Nat.add_comm, Nat.add_assoc, Nat.add_left_comm, ← ih]

theorem filter_ids_length {L : List Nat} {pages : List Page}
    (hL : L.Nodup) (hndp : (pages.map (fun p => p.id)).Nodup)
    (hsub : ∀ x ∈ L, x ∈ pages.map (fun p => p.id)) :
    (pages.filter (fun p => L.any (fun q => q == p.id))).length = L.length := by
  have hperm : ((pages.filter (fun p => L.any (fun q => q == p.id))).map
      (fun p => p.id)).Perm L := by
    rw [List.perm_ext_iff_of_nodup
      (List.Nodup.sublist (List.Sublist.map _ (List.filter_sublist _)) hndp) hL]
    intro a
    constructor
    · intro ha
      rcases List.mem_map.mp ha with ⟨p, hpf, hpid⟩
      rcases List.mem_filter.mp hpf with ⟨-, hcond⟩
      rcases List.any_eq_true.mp hcond with ⟨q, hq, hqe⟩
      rw [← hpid, ← beq_iff_eq.mp hqe]
      exact hq
    · intro ha
      rcases List.mem_map.mp (hsub a ha) with ⟨p, hp, hpid⟩
      refine List.mem_map.mpr ⟨p, List.mem_filter.mpr ⟨hp, ?_⟩, hpid⟩
      exact List.any_eq_true.mpr ⟨a, ha, by simp [hpid]⟩
  calc (pages.filter (fun p => L.any (fun q => q == p.id))).length
      = ((pages.filter (fun p => L.any (fun q => q == p.id))).map
          (fun p => p.id)).length := (List.length_map _ _).symm
    _ = L.length := hperm.length_eq

/-- C2: on an acyclic owner-scoped page tree (witnessed by a rank
function decreasing from parent to child) with distinct page ids,
deleting page P succeeds and: the collected list is exactly the
`childRel`-reflexive-transitive-closure of P; the surviving pages are
exactly those whose id is not in that closure; the surviving blocks are
exactly those whose `pageId` is not in the closure and which are not the
parent's page-reference block pointing at P (raw or stringified);
`deletedCount` equals the number of collected pages, which equals the
number of pages actually removed; and the parent id is returned. -/
theorem deletePage_correct (store : Store) (userId pageId : Nat) (page : Page)
    (rank : Nat → Nat)
    (hfind : store.pages.find? (fun p => p.id == pageId && p.ownerId == userId) = some page)
    (hrank : store.pages.all (fun p =>
      match p.parentPageId with
      | some par => decide (rank p.id < rank par)
      | none => true) = true)
    (hroot : rank pageId < store.pages.length)
    (hndp : (store.pages.map (fun p => p.id)).Nodup) :
    ∃ s' res, deletePage store userId pageId = Except.ok (s', res) ∧
      (∀ x, x ∈ collectDescendantPages store userId store.pages.length pageId ↔
        Relation.ReflTransGen (childRel store userId) pageId x) ∧
      (∀ p, p ∈ s'.pages ↔ p ∈ store.pages ∧
        ¬ Relation.ReflTransGen (childRel store userId) pageId p.id) ∧
      (∀ b, b ∈ s'.blocks ↔ b ∈ store.blocks ∧
        ¬ Relation.ReflTransGen (childRel store userId) pageId b.pageId ∧
        ¬ (∃ par, page.parentPageId = some par ∧ b.pageId = par ∧
          b.type = BType.page ∧
          (b.content.pageId = some (PageRef.raw pageId) ∨
            b.content.pageId = some (PageRef.str pageId)))) ∧
      res.deletedCount =
        (collectDescendantPages store userId store.pages.length pageId).length ∧
      s'.pages.length + res.deletedCount = store.pages.length ∧
      res.parentPageId = page.parentPageId := by
  have hrank' : ∀ p ∈ store.pages, ∀ par, p.parentPageId = some par →
      rank p.id < rank par := by
    intro p hp par hpar
    have := List.all_eq_true.mp hrank p hp
    rw [hpar] at this
    exact of_decide_eq_true this
  have hmem := collect_mem_iff store userId hrank'
    store.pages.length pageId hroot
  have hndL := collect_nodup store userId hrank' hndp
    store.pages.length pageId hroot
  have hpagemem : page ∈ store.pages := List.mem_of_find?_eq_some hfind
  have hpid : page.id = pageId ∧ page.ownerId = userId := by
    have := List.find?_some hfind
    simpa [Bool.and_eq_true, beq_iff_eq] using this
  have hrootmem : pageId ∈ store.pages.map (fun p => p.id) :=
    List.mem_map.mpr ⟨page, hpagemem, hpid.1⟩
  have hsub : ∀ x ∈ collectDescendantPages store userId store.pages.length pageId,
      x ∈ store.pages.map (fun p => p.id) := by
    intro x hx
    exact desc_mem_ids ((hmem x).mp hx) hrootmem
  have hok : deletePage store userId pageId = Except.ok
      ({ store with
          pages := store.pages.filter (fun p =>
            !((collectDescendantPages store userId store.pages.length pageId).any
              (fun q => q == p.id))),
          blocks :=
            match page.parentPageId with
            | some par =>
                (store.blocks.filter (fun b =>
                  !((collectDescendantPages store userId store.pages.length pageId).any
                    (fun q => q == b.pageId)))).filter (fun b =>
                  !(b.pageId == par && decide (b.type = BType.page) &&
                    (b.content.pageId == some (PageRef.raw pageId) ||
                      b.content.pageId == some (PageRef.str pageId))))
            | none =>
                store.blocks.filter (fun b =>
                  !((collectDescendantPages store userId store.pages.length pageId).any
                    (fun q => q == b.pageId))) },
        ⟨(collectDescendantPages store userId store.pages.length pageId).length,
          page.parentPageId⟩) := by
    unfold deletePage
    rw [hfind]
  refine ⟨_, _, hok, hmem, ?_, ?_, ?_, ?_, ?_⟩
  · intro p
    constructor
    · intro hp
      rcases List.mem_filter.mp hp with ⟨hp0, hcond⟩
      rw [Bool.not_eq_true'] at hcond
      refine ⟨hp0, fun hd => ?_⟩
      have hany : (collectDescendantPages store userId store.pages.length pageId).any
          (fun q => q == p.id) = true :=
        List.any_eq_true.mpr ⟨p.id, (hmem p.id).mpr hd, by simp⟩
      rw [hany] at hcond
      cases hcond
    · rintro ⟨hp0, hd⟩
      refine List.mem_filter.mpr ⟨hp0, ?_⟩
      rw [Bool.not_eq_true', List.any_eq_false]
      intro q hq
      intro hqe
      rw [beq_iff_eq] at hqe
      rw [hqe] at hq
      exact hd ((hmem p.id).mp hq)
  · intro b
    cases hpp : page.parentPageId with
    | none =>
        constructor
        · intro hb
          rcases List.mem_filter.mp hb with ⟨hb0, hcond⟩
          rw [Bool.not_eq_true'] at hcond
          refine ⟨hb0, fun hd => ?_, ?_⟩
          · have hany : (collectDescendantPages store userId
                store.pages.length pageId).any (fun q => q == b.pageId) = true :=
              List.any_eq_true.mpr ⟨b.pageId, (hmem b.pageId).mpr hd, by simp⟩
            rw [hany] at hcond
            cases hcond
          · rintro ⟨par, hpar, -⟩
            cases hpar
        · rintro ⟨hb0, hd, -⟩
          refine List.mem_filter.mpr ⟨hb0, ?_⟩
          rw [Bool.not_eq_true', List.any_eq_false]
          intro q hq
          intro hqe
          rw [beq_iff_eq] at hqe
          rw [hqe] at hq
          exact hd ((hmem b.pageId).mp hq)
    | some par =>
        constructor
        · intro hb
          rcases List.mem_filter.mp hb with ⟨hb1, hcond2⟩
          rcases List.mem_filter.mp hb1 with ⟨hb0, hcond1⟩
          rw [Bool.not_eq_true'] at hcond1 hcond2
          refine ⟨hb0, fun hd => ?_, ?_⟩
          · have hany : (collectDescendantPages store userId
                store.pages.length pageId).any (fun q => q == b.pageId) = true :=
              List.any_eq_true.mpr ⟨b.pageId, (hmem b.pageId).mpr hd, by simp⟩
            rw [hany] at hcond1
            cases hcond1
          · rintro ⟨par', hpar', hbp, hbt, hcp⟩
            injection hpar' with hpe
            have hbody : (b.pageId == par && decide (b.type = BType.page) &&
                (b.content.pageId == some (PageRef.raw pageId) ||
                  b.content.pageId == some (PageRef.str pageId))) = true := by
              simp only [Bool.and_eq_true, Bool.or_eq_true, beq_iff_eq,
                decide_eq_true_iff]
              refine ⟨⟨by rw [hbp]; exact hpe.symm, hbt⟩, ?_⟩
              rcases hcp with h | h
              · exact Or.inl h
              · exact Or.inr h
            rw [hbody] at hcond2
            cases hcond2
        · rintro ⟨hb0, hd, hnp⟩
          refine List.mem_filter.mpr ⟨List.mem_filter.mpr ⟨hb0, ?_⟩, ?_⟩
          · rw [Bool.not_eq_true', List.any_eq_false]
            intro q hq
            intro hqe
            rw [beq_iff_eq] at hqe
            rw [hqe] at hq
            exact hd ((hmem b.pageId).mp hq)
          · cases hbody : (b.pageId == par && decide (b.type = BType.page) &&
                (b.content.pageId == some (PageRef.raw pageId) ||
                  b.content.pageId == some (PageRef.str pageId))) with
            | false => rfl
            | true =>
                exfalso
                simp only [Bool.and_eq_true, Bool.or_eq_true, beq_iff_eq,
                  decide_eq_true_iff] at hbody
                exact hnp ⟨par, rfl, hbody.1.1, hbody.1.2, hbody.2⟩
  · rfl
  · show (store.pages.filter (fun p =>
        !((collectDescendantPages store userId store.pages.length pageId).any
          (fun q => q == p.id)))).length +
      (collectDescendantPages store userId store.pages.length pageId).length =
      store.pages.length
    rw [← filter_ids_length hndL hndp hsub]
    exact length_filter_not_add _ _
  · rfl

/-- A three-level page tree (1 ← 2 ← 3, all owned by user 1) with a block
in page 2, the parent's page-reference block to page 2, and an unrelated
block in page 1. -/
def c2Store : Store :=
  ⟨[⟨1, "Root", 1, none, false⟩, ⟨2, "Mid", 1, some 1, false⟩,
    ⟨3, "Leaf", 1, some 2, false⟩],
   [⟨10, 2, BType.paragraph, ⟨none, none, "x"⟩, 0, none⟩,
    ⟨11, 1, BType.page, ⟨some (PageRef.raw 2), none, ""⟩, 0, none⟩,
    ⟨12, 1, BType.paragraph, ⟨none, none, "y"⟩, 1, none⟩], 100⟩

/-- Witness for `deletePage_correct`: deleting page 2 of `c2Store`. -/
theorem deletePage_correct_witness :
    ∃ (s' : Store) (res : DeleteResult), deletePage c2Store 1 2 = Except.ok (s', res) ∧
      (∀ x, x ∈ collectDescendantPages c2Store 1 3 2 ↔
        Relation.ReflTransGen (childRel c2Store 1) 2 x) ∧
      (∀ p, p ∈ s'.pages ↔ p ∈ c2Store.pages ∧
        ¬ Relation.ReflTransGen (childRel c2Store 1) 2 p.id) ∧
      (∀ b, b ∈ s'.blocks ↔ b ∈ c2Store.blocks ∧
        ¬ Relation.ReflTransGen (childRel c2Store 1) 2 b.pageId ∧
        ¬ (∃ par, (⟨2, "Mid", 1, some 1, false⟩ : Page).parentPageId = some par ∧
          b.pageId = par ∧ b.type = BType.page ∧
          (b.content.pageId = some (PageRef.raw 2) ∨
            b.content.pageId = some (PageRef.str 2)))) ∧
      res.deletedCount = (collectDescendantPages c2Store 1 3 2).length ∧
      s'.pages.length + res.deletedCount = 3 ∧
      res.parentPageId = (⟨2, "Mid", 1, some 1, false⟩ : Page).parentPageId :=
  deletePage_correct c2Store 1 2 ⟨2, "Mid", 1, some 1, false⟩ (fun n => 3 - n)
    (by rfl) (by rfl) (by decide) (by decide)

end Pagelet
